import Mathlib

/-!
Verification of the reference parser, range query compiler and daily-verse
scheduler of the versete-biblice.ro service.

The TypeScript sources are embedded shallowly:

* strings are `List Char` / `String`; the specific JavaScript regular
  expressions used by the source are translated into explicit scanning
  functions over character lists;
* the SQL `verses` table is a `List VerseRow`; a `SELECT` with a `WHERE`
  clause is `List.filter`, `ORDER BY` is a stable sort (`stableSort`) on the
  ordering key, `LIMIT n` is `List.take n`, and a `SELECT ... LIMIT 1`
  without `ORDER BY` returns the first matching row in table order;
* `Math.floor (Math.random () * n)`, an arbitrary index below `n`, is
  modelled by a supplied natural number draw taken modulo `n`;
* timestamps (`lastScheduledAt`) are `Option Nat` (null = `none`).
-/

/-! ### Characters and whitespace

`isWsChar` models the ASCII part of the JavaScript regex class `\s`
(the reference strings handled by the service are ASCII plus Romanian
diacritics, none of which are whitespace). -/

def isWsChar (c : Char) : Bool :=
  c == ' ' || c == '\t' || c == '\n' || c == '\r' || c == '\x0b' || c == '\x0c'

/-- JavaScript `String.prototype.trim`: drop leading and trailing whitespace. -/
def trimWs (l : List Char) : List Char :=
  ((l.dropWhile isWsChar).reverse.dropWhile isWsChar).reverse

/-- JavaScript `.replace(/\s+/g, ' ')`: every maximal run of whitespace
characters becomes a single space. -/
def squeezeWs : List Char → List Char
  | [] => []
  | [c] => [if isWsChar c then ' ' else c]
  | a :: b :: rest =>
    if isWsChar a && isWsChar b then squeezeWs (b :: rest)
    else (if isWsChar a then ' ' else a) :: squeezeWs (b :: rest)

/-- Attempt to match the regex `\s*->\s*` at the head of `l`; on success
return the remainder of the input after the match. -/
def matchArrowAt (l : List Char) : Option (List Char) :=
  let t := l.dropWhile isWsChar
  if t.head? == some '-' && t.tail.head? == some '>' then
    some (t.tail.tail.dropWhile isWsChar)
  else none

/-- Attempt to match the regex `\s+to\s+` (case-insensitive, flag `i`) at the
head of `l`; on success return the remainder after the match. -/
def matchToAt (l : List Char) : Option (List Char) :=
  match l with
  | [] => none
  | c :: _ =>
    if isWsChar c then
      let t := l.dropWhile isWsChar
      if (t.head? == some 't' || t.head? == some 'T') &&
          (t.tail.head? == some 'o' || t.tail.head? == some 'O') &&
          (t.tail.tail.head?.any isWsChar) then
        some (t.tail.tail.dropWhile isWsChar)
      else none
    else none

/-- Attempt to match the regex `\s*x\s*` (for a non-whitespace literal `x`,
here `:` or `-`) at the head of `l`. -/
def matchSepAt (x : Char) (l : List Char) : Option (List Char) :=
  let t := l.dropWhile isWsChar
  if t.head? == some x then some (t.tail.dropWhile isWsChar) else none

/-- Driver for a global (`/g`) regex replacement: scan left to right, at each
position try the matcher; on a match emit the single replacement character and
resume after the matched region (the replacement itself is not rescanned,
as in JavaScript `String.prototype.replace`).  The fuel argument bounds the
recursion; every step consumes at least one input character, so fuel equal to
the input length gives the exact JavaScript behaviour. -/
def replaceScan (f : List Char → Option (List Char)) (rep : Char) :
    Nat → List Char → List Char
  | 0, l => l
  | _ + 1, [] => []
  | fuel + 1, c :: rest =>
    match f (c :: rest) with
    | some rem => rep :: replaceScan f rep fuel rem
    | none => c :: replaceScan f rep fuel rest

/-- `cleanReference` from `src/utils/reference-parser.ts`: trim, collapse
whitespace, then normalize the separators `->`, `to`, `:` and `-`. -/
def cleanReference (s : List Char) : List Char :=
  let s1 := trimWs s
  let s2 := squeezeWs s1
  let s3 := replaceScan matchArrowAt '-' s2.length s2
  let s4 := replaceScan matchToAt '-' s3.length s3
  let s5 := replaceScan (matchSepAt ':') ':' s4.length s4
  replaceScan (matchSepAt '-') '-' s5.length s5

/-- JavaScript `String.prototype.split('-')`: split into the (always
non-empty) list of dash-free segments; `""` splits to `[""]`. -/
def splitDash : List Char → List (List Char)
  | [] => [[]]
  | c :: rest =>
    if c = '-' then [] :: splitDash rest
    else
      match splitDash rest with
      | h :: t => (c :: h) :: t
      | [] => [[c]]

/-- The ten decimal digit characters matched by the regex class `\d`. -/
def digitChars : List Char := ['0', '1', '2', '3', '4', '5', '6', '7', '8', '9']

/-- `parseInt(s, 10)` on a string of decimal digits. -/
def natOfDigits (l : List Char) : Nat :=
  l.foldl (fun acc c => acc * 10 + (c.toNat - '0'.toNat)) 0

/-- JavaScript `s.startsWith(pre)`, on the underlying character lists. -/
def strStartsWith (s pre : String) : Bool :=
  pre.data.isPrefixOf s.data

/-- JavaScript `s.toLowerCase()` (ASCII case mapping). -/
def lowerStr (s : String) : String :=
  ⟨s.data.map Char.toLower⟩

/-- JavaScript `slug.split('-')[0]`: the part of `slug` before its first dash
(the whole string when there is no dash). -/
def firstSeg (slug : String) : String :=
  ⟨slug.data.takeWhile (fun c => c ≠ '-')⟩

/-! ### Canonical book catalog -/

/-- Modelled from the spec: the catalog module `src/utils/book-names.ts`
(`BOOK_NAMES`) is not part of the source snapshot, only its importers are.
The spec fixes a list of 66 canonical books (Old Testament ordinals 1-39,
New Testament 40-66, "Genesis to Revelation"), whose slugs are the English
book names lowercased with spaces replaced by dashes
(`src/utils/dynamic-schema.ts`), e.g. "genesis", "matthew", "1-samuel",
"song-of-solomon", "psalms" (examples appearing in `src/utils/slugify.ts` and
`src/db/schema.ts`).  This is the value returned by `getBookSlugs()`. -/
def canonicalBookSlugs : List String :=
  ["genesis", "exodus", "leviticus", "numbers", "deuteronomy", "joshua",
   "judges", "ruth", "1-samuel", "2-samuel", "1-kings", "2-kings",
   "1-chronicles", "2-chronicles", "ezra", "nehemiah", "esther", "job",
   "psalms", "proverbs", "ecclesiastes", "song-of-solomon", "isaiah",
   "jeremiah", "lamentations", "ezekiel", "daniel", "hosea", "joel", "amos",
   "obadiah", "jonah", "micah", "nahum", "habakkuk", "zephaniah", "haggai",
   "zechariah", "malachi", "matthew", "mark", "luke", "john", "acts",
   "romans", "1-corinthians", "2-corinthians", "galatians", "ephesians",
   "philippians", "colossians", "1-thessalonians", "2-thessalonians",
   "1-timothy", "2-timothy", "titus", "philemon", "hebrews", "james",
   "1-peter", "2-peter", "1-john", "2-john", "3-john", "jude", "revelation"]

/-- One-based position of a canonical slug in the catalog (its ordinal). -/
def canonicalOrdinal (slug : String) : Nat :=
  canonicalBookSlugs.indexOf slug + 1

/-! ### The verses table -/

/-- A row of the `verses` table (`src/db/schema.ts`), restricted to the
columns the verified code reads. -/
structure VerseRow where
  bibleTranslationSlug : String
  bookSlug : String
  bookName : String
  chapter : Nat
  verse : Nat
  text : String
deriving Repr, DecidableEq, Inhabited

/-! ### Book resolution (`parseBookFromReference`, src/utils/reference-parser.ts)

The repository also contains a historical variant of this resolver (with
diacritics-stripped prefix matching, a uniqueness check on canonical prefix
matches and a shortest-name tie-break on localized names); the variant wired
into the routes (`src/routes/reference.ts`, `src/routes/mcp.ts`,
`src/routes/quotes.ts` import `src/utils/reference-parser.ts`) is the one
embedded here.  The normalization helpers of the historical variant are also
embedded below (`normalizeForComparison`, `normalizeForPartialMatch`) because
the spec states book-name matching in terms of them. -/

/-- The normalization applied to the book text by `parseBookFromReference`:
`bookPart.toLowerCase().trim()`. -/
def normalizedBookPart (bookPart : List Char) : String :=
  ⟨trimWs (bookPart.map Char.toLower)⟩

/-- The condition of the `find` in the partial-match step:
`slug.startsWith(normalizedBookPart) ||
 normalizedBookPart.startsWith(slug.split('-')[0])`. -/
def canonicalPartialCond (normalized slug : String) : Bool :=
  strStartsWith slug normalized || strStartsWith normalized (firstSeg slug)

/-- The localized fallback of `parseBookFromReference`: the SQL query
`SELECT book_slug FROM verses WHERE LOWER(book_name) = normalized AND
translation_slug = t LIMIT 1`, modelled as the first matching row in table
order. -/
def localizedExactLookup (dbRows : List VerseRow) (normalized : String)
    (translationSlug : String) : Option String :=
  (dbRows.find? (fun r =>
    lowerStr r.bookName == normalized &&
    r.bibleTranslationSlug == translationSlug)).map (·.bookSlug)

/-- `parseBookFromReference` from `src/utils/reference-parser.ts`:
lowercase and trim the book part, try an exact match against the canonical
slugs, then the first partial match, then the localized exact lookup.
A book slug resolving to the empty string is rejected by the caller, see
`parseReferencePart`. -/
def parseBookFromReference (bookSlugs : List String) (dbRows : List VerseRow)
    (bookPart : List Char) (translationSlug : String) : Option String :=
  let normalized : String := normalizedBookPart bookPart
  if bookSlugs.contains normalized then some normalized
  else
    match bookSlugs.find? (canonicalPartialCond normalized) with
    | some m => some m
    | none => localizedExactLookup dbRows normalized translationSlug

/-- `normalizeForComparison` from the historical resolver variant: Unicode
NFD decomposition plus combining-mark stripping (the identity on the ASCII
strings considered here), lowercasing, whitespace collapse and trim. -/
def normalizeForComparison (s : String) : String :=
  ⟨trimWs (squeezeWs (s.data.map Char.toLower))⟩

/-- `normalizeForPartialMatch` from the historical resolver variant:
`normalizeForComparison` followed by removal of every character outside
`[a-z0-9]`. -/
def normalizeForPartialMatch (s : String) : String :=
  ⟨(normalizeForComparison s).data.filter
    (fun c => ('a' ≤ c && c ≤ 'z') || ('0' ≤ c && c ≤ '9'))⟩

/-! ### Reference parsing (`src/utils/reference-parser.ts`) -/

/-- Match the regex fragment `(\d+):(\d+)$`: a non-empty digit run, a colon,
a non-empty digit run, end of input.  Returns the two parsed numbers. -/
def matchChapterVerse (l : List Char) : Option (Nat × Nat) :=
  let ds := l.takeWhile Char.isDigit
  let rest1 := l.dropWhile Char.isDigit
  if ds.isEmpty then none
  else
    match rest1 with
    | ':' :: rest2 =>
      let vs := rest2.takeWhile Char.isDigit
      let rest3 := rest2.dropWhile Char.isDigit
      if vs.isEmpty || !rest3.isEmpty then none
      else some (natOfDigits ds, natOfDigits vs)
    | _ => none

/-- Match the regex fragment `\s+(\d+):(\d+)$` (the tail of the part pattern
after the lazy book group). -/
def matchChapterVerseTail (l : List Char) : Option (Nat × Nat) :=
  match l with
  | [] => none
  | c :: _ =>
    if isWsChar c then matchChapterVerse (l.dropWhile isWsChar) else none

/-- A character matched by the regex `.` (without the `s` flag): anything but
a line terminator. -/
def dotChar (c : Char) : Bool :=
  c ≠ '\n' && c ≠ '\r'

/-- Scanner for the part regex `^(.+?)\s+(\d+):(\d+)$`: the lazy group takes
the shortest non-empty prefix of dot-characters whose remainder matches
`\s+(\d+):(\d+)$`.  `acc` is the (reversed-free) prefix consumed so far. -/
def splitBookRef (acc : List Char) : List Char → Option (List Char × Nat × Nat)
  | [] => none
  | c :: rest =>
    if dotChar c then
      match matchChapterVerseTail rest with
      | some (ch, v) => some (acc ++ [c], ch, v)
      | none => splitBookRef (acc ++ [c]) rest
    else none

/-- Full match of the part regex `^(.+?)\s+(\d+):(\d+)$`, returning the book
text and the two numbers. -/
def matchRefPart (l : List Char) : Option (List Char × Nat × Nat) :=
  splitBookRef [] l

/-- `parseReferencePart`: match the part regex, resolve the book text, and
reject a falsy (null or empty) book. -/
def parseReferencePart (bookSlugs : List String) (dbRows : List VerseRow)
    (translationSlug : String) (part : List Char) :
    Option (String × Nat × Nat) :=
  match matchRefPart part with
  | none => none
  | some (bookPart, ch, v) =>
    match parseBookFromReference bookSlugs dbRows bookPart translationSlug with
    | none => none
    | some b => if b = "" then none else some (b, ch, v)

/-- The result record of `parseReference` (interface `ParsedReference`).
The optional end fields are `none` exactly when absent in the source value. -/
structure ParsedReference where
  book : String
  chapter : Nat
  verse : Nat
  endBook : Option String := none
  endChapter : Option Nat := none
  endVerse : Option Nat := none
deriving Repr, DecidableEq

/-- `parseReference` from `src/utils/reference-parser.ts`: clean the string,
split on dashes (at most two parts), parse the start part, then try the end
part as a full reference, as `chapter:verse`, and as a bare verse number. -/
def parseReference (bookSlugs : List String) (dbRows : List VerseRow)
    (reference : String) (translationSlug : String) : Option ParsedReference :=
  let cleaned := cleanReference reference.data
  let parts := splitDash cleaned
  if parts.length = 0 ∨ parts.length > 2 then none
  else
    match parts with
    | [] => none
    | p0 :: restParts =>
      match parseReferencePart bookSlugs dbRows translationSlug p0 with
      | none => none
      | some (b, c, v) =>
        match restParts with
        | [] => some { book := b, chapter := c, verse := v }
        | p1 :: _ =>
          match parseReferencePart bookSlugs dbRows translationSlug p1 with
          | some (eb, ec, ev) =>
            some { book := b, chapter := c, verse := v,
                   endBook := some eb, endChapter := some ec,
                   endVerse := some ev }
          | none =>
            match matchChapterVerse p1 with
            | some (ec, ev) =>
              some { book := b, chapter := c, verse := v,
                     endBook := some b, endChapter := some ec,
                     endVerse := some ev }
            | none =>
              if !p1.isEmpty && p1.all Char.isDigit then
                some { book := b, chapter := c, verse := v,
                       endBook := some b, endChapter := some c,
                       endVerse := some (natOfDigits p1) }
              else none

/-! ### Stable sorting

`ORDER BY` clauses and JavaScript `Array.prototype.sort` (which is stable)
are modelled by a stable insertion sort on the boolean comparator; a stable
sort is a function of the comparator and the input list, so the choice of
algorithm is immaterial.  Insertion sort is structurally recursive and hence
evaluates inside the kernel. -/

/-- Insert `a` before the first element `b` of the (sorted) list with
`le a b`. -/
def orderedInsert (le : α → α → Bool) (a : α) : List α → List α
  | [] => [a]
  | b :: l => if le a b then a :: b :: l else b :: orderedInsert le a l

/-- Stable insertion sort by the boolean comparator `le`. -/
def stableSort (le : α → α → Bool) : List α → List α
  | [] => []
  | a :: l => orderedInsert le a (stableSort le l)

theorem orderedInsert_perm (le : α → α → Bool) (a : α) (l : List α) :
    List.Perm (orderedInsert le a l) (a :: l) := by
  induction l with
  | nil => exact List.Perm.refl _
  | cons b t ih =>
    simp only [orderedInsert]
    by_cases h : le a b = true
    · simp [h]
    · simp only [h, if_false]
      exact (ih.cons b).trans (List.Perm.swap a b t)

theorem stableSort_perm (le : α → α → Bool) (l : List α) :
    List.Perm (stableSort le l) l := by
  induction l with
  | nil => exact List.Perm.refl _
  | cons a t ih =>
    exact (orderedInsert_perm le a (stableSort le t)).trans (ih.cons a)

theorem mem_stableSort (le : α → α → Bool) (l : List α) (x : α) :
    x ∈ stableSort le l ↔ x ∈ l :=
  (stableSort_perm le l).mem_iff

theorem length_stableSort (le : α → α → Bool) (l : List α) :
    (stableSort le l).length = l.length :=
  (stableSort_perm le l).length_eq

theorem pairwise_orderedInsert (le : α → α → Bool)
    (htot : ∀ a b, le a b || le b a)
    (htrans : ∀ a b c, le a b → le b c → le a c)
    (a : α) (l : List α) (h : l.Pairwise (fun x y => le x y = true)) :
    (orderedInsert le a l).Pairwise (fun x y => le x y = true) := by
  induction l with
  | nil => simp [orderedInsert]
  | cons b t ih =>
    simp only [orderedInsert]
    by_cases hab : le a b = true
    · simp only [hab, if_true]
      refine List.Pairwise.cons ?_ h
      intro x hx
      simp only [List.mem_cons] at hx
      rcases hx with rfl | hx
      · exact hab
      · exact htrans a b x hab (List.rel_of_pairwise_cons h hx)
    · simp only [hab, if_false]
      refine List.Pairwise.cons ?_ (ih h.tail)
      intro x hx
      rw [(orderedInsert_perm le a t).mem_iff] at hx
      simp only [List.mem_cons] at hx
      rcases hx with rfl | hx
      · have hba := htot x b
        simp only [hab, Bool.false_or] at hba
        exact hba
      · exact List.rel_of_pairwise_cons h hx

theorem pairwise_stableSort (le : α → α → Bool)
    (htot : ∀ a b, le a b || le b a)
    (htrans : ∀ a b c, le a b → le b c → le a c) (l : List α) :
    (stableSort le l).Pairwise (fun x y => le x y = true) := by
  induction l with
  | nil => simp [stableSort]
  | cons a t ih => exact pairwise_orderedInsert le htot htrans a _ ih

/-! ### Range query compilation

`buildVerseRangeCondition` (src/services/daily-verses.service.ts) and the
inline query builders of the passage/reference routes
(src/routes/passages.ts, src/routes/reference.ts).  Arithmetic on range
bounds (`endChapter - 1`) is done in `Int`, as JavaScript number arithmetic
does not truncate at zero. -/

/-- The structured range stored in a `daily_verse_pool` row / passed to
`buildVerseRangeCondition`. -/
structure VerseRange where
  startBook : String
  endBook : String
  startChapter : Nat
  endChapter : Nat
  startVerse : Nat
  endVerse : Nat
deriving Repr, DecidableEq, Inhabited

/-- `buildVerseRangeCondition` from `src/services/daily-verses.service.ts` as
a row predicate: translation equality plus the same-chapter / same-book /
cross-book case split. -/
def buildVerseRangeCondition (r : VerseRange) (bibleTranslationSlug : String)
    (v : VerseRow) : Bool :=
  v.bibleTranslationSlug == bibleTranslationSlug &&
  (if r.startBook == r.endBook then
    v.bookSlug == r.startBook &&
    (if r.startChapter == r.endChapter then
      v.chapter == r.startChapter &&
      decide (v.verse ≥ r.startVerse) && decide (v.verse ≤ r.endVerse)
    else
      (v.chapter == r.startChapter && decide (v.verse ≥ r.startVerse)) ||
      (decide (v.chapter ≥ r.startChapter + 1) &&
        decide ((v.chapter : Int) ≤ (r.endChapter : Int) - 1)) ||
      (v.chapter == r.endChapter && decide (v.verse ≤ r.endVerse)))
  else
    (v.bookSlug == r.startBook &&
      ((v.chapter == r.startChapter && decide (v.verse ≥ r.startVerse)) ||
        decide (v.chapter ≥ r.startChapter + 1))) ||
    (v.bookSlug == r.endBook &&
      (decide ((v.chapter : Int) ≤ (r.endChapter : Int) - 1) ||
        (v.chapter == r.endChapter && decide (v.verse ≤ r.endVerse)))))

/-- `ORDER BY chapter ASC, verse ASC` as a boolean order on rows. -/
def chapterVerseLe (a b : VerseRow) : Bool :=
  decide (a.chapter < b.chapter) ||
  (a.chapter == b.chapter && decide (a.verse ≤ b.verse))

/-- `ORDER BY verse ASC` as a boolean order on rows. -/
def verseLe (a b : VerseRow) : Bool :=
  decide (a.verse ≤ b.verse)

/-- The `WHERE` clause of the single-verse branch of the passage route. -/
def singleVersePred (t book : String) (chapter verse : Nat) (v : VerseRow) :
    Bool :=
  v.bibleTranslationSlug == t && v.bookSlug == book &&
  v.chapter == chapter && v.verse == verse

/-- The `WHERE` clause of the same-chapter branch of the passage route. -/
def sameChapterPred (t book : String) (chapter verse endVerse : Nat)
    (v : VerseRow) : Bool :=
  v.bibleTranslationSlug == t && v.bookSlug == book &&
  v.chapter == chapter &&
  decide (v.verse ≥ verse) && decide (v.verse ≤ endVerse)

/-- The `WHERE` clause of the multi-chapter branch of the passage route. -/
def multiChapterPred (t book : String) (chapter verse endChapter endVerse : Nat)
    (v : VerseRow) : Bool :=
  v.bibleTranslationSlug == t && v.bookSlug == book &&
  ((v.chapter == chapter && decide (v.verse ≥ verse)) ||
    (decide (v.chapter ≥ chapter + 1) &&
      decide ((v.chapter : Int) ≤ (endChapter : Int) - 1)) ||
    (v.chapter == endChapter && decide (v.verse ≤ endVerse)))

/-- The `WHERE` clause of the cross-book branch of the passage route. -/
def crossBookPred (t startBook : String) (chapter verse : Nat)
    (endBook : String) (endChapter endVerse : Nat) (v : VerseRow) : Bool :=
  v.bibleTranslationSlug == t &&
  ((v.bookSlug == startBook &&
      ((v.chapter == chapter && decide (v.verse ≥ verse)) ||
        decide (v.chapter ≥ chapter + 1))) ||
    (v.bookSlug == endBook &&
      (decide ((v.chapter : Int) ≤ (endChapter : Int) - 1) ||
        (v.chapter == endChapter && decide (v.verse ≤ endVerse)))))

/-- The end-book defaulting of the passage route handler:
`(endBook ?? '').toLowerCase() !== '' ? (endBook ?? '').toLowerCase()
 : startBook`. -/
def passageFinalEndBook (book : String) (endBook : Option String) : String :=
  let startBook := lowerStr book
  match endBook with
  | some eb => if lowerStr eb ≠ "" then lowerStr eb else startBook
  | none => startBook

/-- The query part of the `getPassage` route handler
(`src/routes/passages.ts`): defaulting of the end fields followed by the
four-way branch on the range shape.  The multi-chapter and cross-book
branches carry `.limit(500)`; the same-chapter branch carries no limit. -/
def passageQueryRows (dbRows : List VerseRow) (t : String) (book : String)
    (chapter verse : Nat) (endBook : Option String)
    (endChapter endVerse : Option Nat) : List VerseRow :=
  let startBook := lowerStr book
  let finalEndBook := passageFinalEndBook book endBook
  let finalEndChapter := endChapter.getD chapter
  let finalEndVerse := endVerse.getD verse
  if startBook = finalEndBook ∧ chapter = finalEndChapter ∧
      verse = finalEndVerse then
    (dbRows.filter (singleVersePred t startBook chapter verse)).take 1
  else if startBook = finalEndBook ∧ chapter = finalEndChapter then
    stableSort verseLe
      (dbRows.filter (sameChapterPred t startBook chapter verse finalEndVerse))
  else if startBook = finalEndBook then
    (stableSort chapterVerseLe
      (dbRows.filter
        (multiChapterPred t startBook chapter verse finalEndChapter
          finalEndVerse))).take 500
  else
    (stableSort chapterVerseLe
      (dbRows.filter
        (crossBookPred t startBook chapter verse finalEndBook finalEndChapter
          finalEndVerse))).take 500

/-- The verse query of `getDailyVerse`
(`src/services/daily-verses.service.ts`): the compiled range condition with
`ORDER BY chapter ASC, verse ASC` and no limit. -/
def dailyVerseQuery (dbRows : List VerseRow) (r : VerseRange) (t : String) :
    List VerseRow :=
  stableSort chapterVerseLe (dbRows.filter (buildVerseRangeCondition r t))

/-- The in-memory range membership test used by
`getDailyVersesBetweenDates` to re-partition the rows of the batched query
(the `entryVerses` filter). -/
def entryFilterCondition (e : VerseRange) (v : VerseRow) : Bool :=
  if e.startBook == e.endBook then
    if v.bookSlug != e.startBook then false
    else if e.startChapter == e.endChapter then
      v.chapter == e.startChapter &&
      decide (v.verse ≥ e.startVerse) && decide (v.verse ≤ e.endVerse)
    else if v.chapter == e.startChapter then decide (v.verse ≥ e.startVerse)
    else if v.chapter == e.endChapter then decide (v.verse ≤ e.endVerse)
    else decide (v.chapter > e.startChapter) && decide (v.chapter < e.endChapter)
  else if v.bookSlug == e.startBook then
    if v.chapter == e.startChapter then decide (v.verse ≥ e.startVerse)
    else decide (v.chapter > e.startChapter)
  else if v.bookSlug == e.endBook then
    if v.chapter == e.endChapter then decide (v.verse ≤ e.endVerse)
    else decide (v.chapter < e.endChapter)
  else false

/-- Lexicographic (code-point) order on character lists; the model of a
negative `localeCompare` result on the ASCII slugs involved. -/
def charListLt : List Char → List Char → Bool
  | [], [] => false
  | [], _ :: _ => true
  | _ :: _, [] => false
  | a :: as, b :: bs =>
    if a < b then true else if b < a then false else charListLt as bs

/-- Strict alphabetical order on strings (`a.localeCompare(b) < 0`). -/
def strLt (a b : String) : Bool :=
  charListLt a.data b.data

/-- The in-memory comparator of `getDailyVersesBetweenDates` as a boolean
order: book slug first (`localeCompare`, modelled as lexicographic string
order — the slugs are plain ASCII), then chapter, then verse. -/
def bookChapterVerseLe (a b : VerseRow) : Bool :=
  if a.bookSlug == b.bookSlug then
    if a.chapter == b.chapter then decide (a.verse ≤ b.verse)
    else decide (a.chapter ≤ b.chapter)
  else strLt a.bookSlug b.bookSlug

/-- The per-entry result assembly of `getDailyVersesBetweenDates`: filter the
batched rows down to the entry's range, then sort by book slug, chapter and
verse. -/
def partitionEntryVerses (e : VerseRange) (allVerses : List VerseRow) :
    List VerseRow :=
  stableSort bookChapterVerseLe (allVerses.filter (entryFilterCondition e))

/-! ### Daily verse scheduler (`src/services/daily-verses.service.ts`)

Dates are modelled structurally as year/month/day triples; the source builds
`YYYY-MM-DD` strings via local-time `Date` objects and compares them
lexicographically, which on well-formed dates is the same order.  The
`daily_verse_pool` and `daily_verse_scheduled` tables are those of migration
`drizzle/0000_bored_maximus.sql`. -/

/-- A row of `daily_verse_pool`, restricted to the columns the scheduler
reads and writes.  `publishDate` is the optional fixed `MM-DD` key,
`lastScheduledAt` the nullable last-scheduled timestamp. -/
structure PoolEntry where
  id : Nat
  publishDate : Option String := none
  lastScheduledAt : Option Nat := none
  scheduleCount : Nat := 0
deriving Repr, DecidableEq, Inhabited

/-- The sort comparator of `selectWeightedRandom` as a boolean order:
null `lastScheduledAt` sorts before every non-null value, non-null values
sort by timestamp ascending. -/
def lastLe (a b : PoolEntry) : Bool :=
  match a.lastScheduledAt, b.lastScheduledAt with
  | none, _ => true
  | some _, none => false
  | some x, some y => decide (x ≤ y)

/-- Strict version of `lastLe`: `a` is scheduled strictly longer ago than
`b` (null counting as infinitely long ago). -/
def lastLt (a b : PoolEntry) : Bool :=
  lastLe a b && !lastLe b a

/-- `selectWeightedRandom`: stable-sort the candidates by `lastScheduledAt`
(null first), keep the oldest `min 90 n`, and return the id of the entry at
the random index `rnd % length` (the model of
`Math.floor(Math.random() * candidates.length)`).  The source only calls
this with a non-empty list. -/
def selectWeightedRandom (poolVerses : List PoolEntry) (rnd : Nat) : Nat :=
  let sorted := stableSort lastLe poolVerses
  let candidates := sorted.take (min 90 sorted.length)
  (candidates.getD (rnd % candidates.length) default).id

/-- Two-digit zero padding (`String(n).padStart(2, '0')`). -/
def pad2 (n : Nat) : String :=
  if n < 10 then "0" ++ toString n else toString n

/-- The `MM-DD` key of a date, as computed per scheduled day. -/
def mmddKey (month day : Nat) : String :=
  pad2 month ++ "-" ++ pad2 day

/-- The per-date selection step of `scheduleMonthlyVerses`: filter the pool
to the entries whose `publishDate` equals the date's `MM-DD` key; select from
that subset when non-empty and from the whole pool otherwise. -/
def selectForDate (pool : List PoolEntry) (monthDay : String) (rnd : Nat) :
    Nat :=
  let versesWithPublishDate :=
    pool.filter (fun p => p.publishDate == some monthDay)
  if versesWithPublishDate.length > 0 then
    selectWeightedRandom versesWithPublishDate rnd
  else selectWeightedRandom pool rnd

/-- `new Date(year, month, 0).getDate()`: the number of days of the 1-based
`month` of `year` in the Gregorian calendar. -/
def daysInMonth (year month : Nat) : Nat :=
  if month = 2 then
    if year % 4 = 0 ∧ (year % 100 ≠ 0 ∨ year % 400 = 0) then 29 else 28
  else if month = 4 ∨ month = 6 ∨ month = 9 ∨ month = 11 then 30
  else 31

/-- A calendar date (`YYYY-MM-DD`). -/
structure DateYMD where
  year : Nat
  month : Nat
  day : Nat
deriving Repr, DecidableEq, Inhabited

/-- A row of `daily_verse_scheduled` (the table has a unique index on
`date`). -/
structure ScheduledRow where
  date : DateYMD
  versePoolId : Nat
deriving Repr, DecidableEq, Inhabited

/-- `scheduleMonthlyVerses`: load the pool (given), bail out when it is
empty, enumerate the days of the month, select one pool entry per day, and
return the rows to insert together with the updated pool (each selected
entry gets `lastScheduledAt := now` and its `scheduleCount` incremented by
the number of times it was chosen in this run).  The per-day random draws
are supplied as `rnds`. -/
def scheduleMonthlyVerses (pool : List PoolEntry) (year month : Nat)
    (rnds : Nat → Nat) (now : Nat) : List ScheduledRow × List PoolEntry :=
  if pool.isEmpty then ([], pool)
  else
    let rows := (List.range (daysInMonth year month)).map (fun i =>
      { date := { year := year, month := month, day := i + 1 },
        versePoolId := selectForDate pool (mmddKey month (i + 1)) (rnds i) })
    let chosenIds := rows.map (·.versePoolId)
    let newPool := pool.map (fun p =>
      if chosenIds.contains p.id then
        { p with lastScheduledAt := some now,
                 scheduleCount := p.scheduleCount + chosenIds.count p.id }
      else p)
    (rows, newPool)

/-- Next-month computation of `ensureScheduledVerses`. -/
def nextMonthOf (year month : Nat) : Nat × Nat :=
  if month = 12 then (year + 1, 1) else (year, month + 1)

/-- Whether `daily_verse_scheduled` has a row dated in the given month (the
source selects rows with `date` between the first and last day of the month,
`LIMIT 1`). -/
def hasRowsForMonth (state : List ScheduledRow) (year month : Nat) : Bool :=
  state.any (fun r => r.date.year == year && r.date.month == month)

/-- `ensureScheduledVerses`: if next month has no scheduled rows, schedule
next month and the month after (first run); otherwise schedule only the
month after next, and only if it has no rows yet.  Returns the new table
contents (inserts are appends) and the updated pool. -/
def ensureScheduledVerses (state : List ScheduledRow) (pool : List PoolEntry)
    (currentYear currentMonth : Nat) (rnds1 rnds2 : Nat → Nat) (now : Nat) :
    List ScheduledRow × List PoolEntry :=
  let nm := nextMonthOf currentYear currentMonth
  let ma := nextMonthOf nm.1 nm.2
  if !hasRowsForMonth state nm.1 nm.2 then
    let r1 := scheduleMonthlyVerses pool nm.1 nm.2 rnds1 now
    let r2 := scheduleMonthlyVerses r1.2 ma.1 ma.2 rnds2 now
    (state ++ r1.1 ++ r2.1, r2.2)
  else if !hasRowsForMonth state ma.1 ma.2 then
    let r2 := scheduleMonthlyVerses pool ma.1 ma.2 rnds2 now
    (state ++ r2.1, r2.2)
  else (state, pool)

/-! ### Generic facts about the parser -/

theorem parseReference_none_of_long_split (bookSlugs : List String)
    (dbRows : List VerseRow) (reference translationSlug : String)
    (h : (splitDash (cleanReference reference.data)).length > 2) :
    parseReference bookSlugs dbRows reference translationSlug = none := by
  unfold parseReference
  simp only []
  rw [if_pos (Or.inr h)]

theorem parseReference_none_of_first_part (bookSlugs : List String)
    (dbRows : List VerseRow) (reference translationSlug : String)
    (p0 : List Char) (rest : List (List Char))
    (hs : splitDash (cleanReference reference.data) = p0 :: rest)
    (hp : matchRefPart p0 = none) :
    parseReference bookSlugs dbRows reference translationSlug = none := by
  unfold parseReference
  simp only [hs]
  split
  · rfl
  · simp only [parseReferencePart, hp]

/-! ### Claim C8 -/

/-- Claim C8: `parseReference` returns the failure value `none`
(`InvalidFormat`) for inputs that do not match the supported grammar after
separator normalization: in particular for "not a reference",
"genesis 1:1:2" and "genesis-exodus", and for every input that normalizes to
more than two dash-separated parts.  No storage write exists in the parser
(the embedding is a pure function of the verses table). -/
theorem c8_invalid_inputs (bookSlugs : List String) (dbRows : List VerseRow)
    (t : String) :
    parseReference bookSlugs dbRows "not a reference" t = none ∧
    parseReference bookSlugs dbRows "genesis 1:1:2" t = none ∧
    parseReference bookSlugs dbRows "genesis-exodus" t = none ∧
    ∀ reference : String,
      (splitDash (cleanReference reference.data)).length > 2 →
      parseReference bookSlugs dbRows reference t = none := by
  refine ⟨?_, ?_, ?_, fun r h => parseReference_none_of_long_split _ _ _ _ h⟩
  · exact parseReference_none_of_first_part _ _ _ _
      ("not a reference").data [] (by decide) (by decide)
  · exact parseReference_none_of_first_part _ _ _ _
      ("genesis 1:1:2").data [] (by decide) (by decide)
  · exact parseReference_none_of_first_part _ _ _ _
      ("genesis").data [("exodus").data] (by decide) (by decide)

/-- Witness for claim C8: the general clause applied to the concrete input
"genesis 1:1-exodus 2:3-leviticus 4:5", which normalizes to three parts. -/
theorem c8_invalid_inputs_witness :
    parseReference canonicalBookSlugs [] "genesis 1:1-exodus 2:3-leviticus 4:5"
      "vdcc" = none :=
  (c8_invalid_inputs canonicalBookSlugs [] "vdcc").2.2.2
    "genesis 1:1-exodus 2:3-leviticus 4:5" (by decide)

/-! ### Claims C2 and C3: the compiled range predicates -/

/-- Lexicographic order on (chapter, verse) positions. -/
def lexLe (c1 v1 c2 v2 : Nat) : Prop :=
  c1 < c2 ∨ (c1 = c2 ∧ v1 ≤ v2)

theorem window_arith (sc sv ec ev ch vv : Nat) (hch : sc < ec) :
    (((ch = sc ∧ vv ≥ sv) ∨ (ch ≥ sc + 1 ∧ (ch : Int) ≤ (ec : Int) - 1)) ∨
        (ch = ec ∧ vv ≤ ev)) ↔
      (lexLe sc sv ch vv ∧ lexLe ch vv ec ev) := by
  unfold lexLe
  constructor
  · rintro ((⟨h1, h2⟩ | ⟨h1, h2⟩) | ⟨h1, h2⟩) <;> constructor <;> omega
  · rintro ⟨h1 | ⟨e1, l1⟩, h2 | ⟨e2, l2⟩⟩
    · exact Or.inl (Or.inr ⟨by omega, by omega⟩)
    · exact Or.inr ⟨by omega, by omega⟩
    · exact Or.inl (Or.inl ⟨by omega, by omega⟩)
    · exact Or.inl (Or.inl ⟨by omega, by omega⟩)

theorem buildVerseRangeCondition_multichapter_iff (r : VerseRange)
    (t : String) (v : VerseRow) (hbook : r.startBook = r.endBook)
    (hch : r.startChapter < r.endChapter) :
    buildVerseRangeCondition r t v = true ↔
      (v.bibleTranslationSlug = t ∧ v.bookSlug = r.startBook ∧
        lexLe r.startChapter r.startVerse v.chapter v.verse ∧
        lexLe v.chapter v.verse r.endChapter r.endVerse) := by
  have h1 : (r.startBook == r.endBook) = true := by simp [hbook]
  have h2 : (r.startChapter == r.endChapter) = false := by
    simp [Nat.ne_of_lt hch]
  simp only [buildVerseRangeCondition, h1, h2, Bool.false_eq_true, if_true,
    if_false, Bool.and_eq_true, Bool.or_eq_true, decide_eq_true_eq,
    beq_iff_eq]
  rw [window_arith r.startChapter r.startVerse r.endChapter r.endVerse
    v.chapter v.verse hch]

theorem multiChapterPred_iff (t book : String)
    (chapter verse endChapter endVerse : Nat) (v : VerseRow)
    (hch : chapter < endChapter) :
    multiChapterPred t book chapter verse endChapter endVerse v = true ↔
      (v.bibleTranslationSlug = t ∧ v.bookSlug = book ∧
        lexLe chapter verse v.chapter v.verse ∧
        lexLe v.chapter v.verse endChapter endVerse) := by
  simp only [multiChapterPred, Bool.and_eq_true, Bool.or_eq_true,
    decide_eq_true_eq, beq_iff_eq]
  rw [window_arith chapter verse endChapter endVerse v.chapter v.verse hch]
  tauto

theorem tail_arith (sc sv ch vv : Nat) :
    ((ch = sc ∧ vv ≥ sv) ∨ ch ≥ sc + 1) ↔ lexLe sc sv ch vv := by
  unfold lexLe
  constructor
  · rintro (⟨h1, h2⟩ | h1)
    · exact Or.inr ⟨h1.symm, h2⟩
    · exact Or.inl (by omega)
  · rintro (h1 | ⟨h1, h2⟩)
    · exact Or.inr (by omega)
    · exact Or.inl ⟨h1.symm, h2⟩

theorem head_arith (ec ev ch vv : Nat) :
    ((ch : Int) ≤ (ec : Int) - 1 ∨ (ch = ec ∧ vv ≤ ev)) ↔
      lexLe ch vv ec ev := by
  unfold lexLe
  constructor
  · rintro (h1 | ⟨h1, h2⟩)
    · exact Or.inl (by omega)
    · exact Or.inr ⟨h1, h2⟩
  · rintro (h1 | ⟨h1, h2⟩)
    · exact Or.inl (by omega)
    · exact Or.inr ⟨h1, h2⟩

theorem buildVerseRangeCondition_crossbook_iff (r : VerseRange) (t : String)
    (v : VerseRow) (hbook : r.startBook ≠ r.endBook) :
    buildVerseRangeCondition r t v = true ↔
      (v.bibleTranslationSlug = t ∧
        ((v.bookSlug = r.startBook ∧
            lexLe r.startChapter r.startVerse v.chapter v.verse) ∨
          (v.bookSlug = r.endBook ∧
            lexLe v.chapter v.verse r.endChapter r.endVerse))) := by
  have h1 : (r.startBook == r.endBook) = false := by
    simp [hbook]
  simp only [buildVerseRangeCondition, h1, Bool.false_eq_true, if_false,
    Bool.and_eq_true, Bool.or_eq_true, decide_eq_true_eq, beq_iff_eq]
  rw [tail_arith r.startChapter r.startVerse v.chapter v.verse,
    head_arith r.endChapter r.endVerse v.chapter v.verse]

theorem crossBookPred_iff (t startBook : String) (chapter verse : Nat)
    (endBook : String) (endChapter endVerse : Nat) (v : VerseRow) :
    crossBookPred t startBook chapter verse endBook endChapter endVerse v
        = true ↔
      (v.bibleTranslationSlug = t ∧
        ((v.bookSlug = startBook ∧ lexLe chapter verse v.chapter v.verse) ∨
          (v.bookSlug = endBook ∧
            lexLe v.chapter v.verse endChapter endVerse))) := by
  simp only [crossBookPred, Bool.and_eq_true, Bool.or_eq_true,
    decide_eq_true_eq, beq_iff_eq]
  rw [tail_arith chapter verse v.chapter v.verse,
    head_arith endChapter endVerse v.chapter v.verse]

/-- Claim C3: for a same-book multi-chapter range the compiled predicate is
the three-clause disjunction, equivalent to the book being the start book and
(chapter, verse) lying lexicographically between (startChapter, startVerse)
and (endChapter, endVerse) inclusive; every row the passage route returns for
such a range lies in that window and no row outside it is returned. -/
theorem c3_samebook_multichapter (r : VerseRange) (t : String)
    (dbRows : List VerseRow) (hbook : r.startBook = r.endBook)
    (hch : r.startChapter < r.endChapter) :
    (∀ v : VerseRow,
      buildVerseRangeCondition r t v = true ↔
        (v.bibleTranslationSlug = t ∧ v.bookSlug = r.startBook ∧
          lexLe r.startChapter r.startVerse v.chapter v.verse ∧
          lexLe v.chapter v.verse r.endChapter r.endVerse)) ∧
    (∀ (book : String) (chapter verse endChapter endVerse : Nat)
        (v : VerseRow), lowerStr book = book → chapter < endChapter →
      v ∈ passageQueryRows dbRows t book chapter verse none (some endChapter)
          (some endVerse) →
      (v.bibleTranslationSlug = t ∧ v.bookSlug = book ∧
        lexLe chapter verse v.chapter v.verse ∧
        lexLe v.chapter v.verse endChapter endVerse)) := by
  refine ⟨fun v => buildVerseRangeCondition_multichapter_iff r t v hbook hch,
    fun book chapter verse ec ev v hlow hch2 hv => ?_⟩
  have hne : chapter ≠ ec := Nat.ne_of_lt hch2
  simp only [passageQueryRows, passageFinalEndBook, hlow, Option.getD_some]
    at hv
  rw [if_neg (fun h => hne h.2.1), if_neg (fun h => hne h.2),
    if_pos trivial] at hv
  have hv2 := List.mem_of_mem_take hv
  rw [mem_stableSort, List.mem_filter] at hv2
  exact (multiChapterPred_iff t book chapter verse ec ev v hch2).mp hv2.2

/-- Witness for claim C3: a concrete Genesis 1:2 - 3:4 range and a concrete
row returned by the route for it. -/
theorem c3_samebook_multichapter_witness :
    ("vdcc" : String) = "vdcc" ∧
    (VerseRow.mk "vdcc" "genesis" "Geneza" 2 7 "x").bibleTranslationSlug
        = "vdcc" ∧
    (VerseRow.mk "vdcc" "genesis" "Geneza" 2 7 "x").bookSlug = "genesis" ∧
    lexLe 1 2 2 7 ∧ lexLe 2 7 3 4 := by
  have h := (c3_samebook_multichapter
    { startBook := "genesis", endBook := "genesis", startChapter := 1,
      endChapter := 3, startVerse := 2, endVerse := 4 } "vdcc"
    [VerseRow.mk "vdcc" "genesis" "Geneza" 2 7 "x"] rfl (by decide)).2
    "genesis" 1 2 3 4 (VerseRow.mk "vdcc" "genesis" "Geneza" 2 7 "x")
    (by decide) (by decide) (by decide)
  exact ⟨rfl, h.1, h.2.1, h.2.2.1, h.2.2.2⟩

/-- Claim C2: for a cross-book range the compiled predicate selects exactly
the verses of the translation that are in the start book at or after the
start position or in the end book at or before the end position; rows of any
other book (including books canonically between the endpoints) never
satisfy it and are never returned.  The parse of "genesis 1:1-exodus 2:3"
yields start genesis 1:1 and end exodus 2:3. -/
theorem c2_crossbook_endpoints_only (r : VerseRange) (t : String)
    (dbRows : List VerseRow) (hbook : r.startBook ≠ r.endBook) :
    (∀ v : VerseRow,
      buildVerseRangeCondition r t v = true ↔
        (v.bibleTranslationSlug = t ∧
          ((v.bookSlug = r.startBook ∧
              lexLe r.startChapter r.startVerse v.chapter v.verse) ∨
            (v.bookSlug = r.endBook ∧
              lexLe v.chapter v.verse r.endChapter r.endVerse)))) ∧
    (∀ v : VerseRow,
      v ∈ dailyVerseQuery dbRows r t ↔
        (v ∈ dbRows ∧ v.bibleTranslationSlug = t ∧
          ((v.bookSlug = r.startBook ∧
              lexLe r.startChapter r.startVerse v.chapter v.verse) ∨
            (v.bookSlug = r.endBook ∧
              lexLe v.chapter v.verse r.endChapter r.endVerse)))) ∧
    (∀ (startBook endBook : String) (chapter verse endChapter endVerse : Nat)
        (v : VerseRow),
      lowerStr startBook = startBook → lowerStr endBook = endBook →
      endBook ≠ "" → startBook ≠ endBook →
      v ∈ passageQueryRows dbRows t startBook chapter verse (some endBook)
          (some endChapter) (some endVerse) →
      (v.bibleTranslationSlug = t ∧
        ((v.bookSlug = startBook ∧ lexLe chapter verse v.chapter v.verse) ∨
          (v.bookSlug = endBook ∧
            lexLe v.chapter v.verse endChapter endVerse)))) ∧
    parseReference canonicalBookSlugs [] "genesis 1:1-exodus 2:3" "vdcc"
      = some { book := "genesis", chapter := 1, verse := 1,
               endBook := some "exodus", endChapter := some 2,
               endVerse := some 3 } := by
  refine ⟨fun v => buildVerseRangeCondition_crossbook_iff r t v hbook,
    fun v => ?_, ?_, by decide⟩
  · rw [dailyVerseQuery, mem_stableSort, List.mem_filter,
      buildVerseRangeCondition_crossbook_iff r t v hbook]
  · intro sb eb c vs ec ev v hlsb hleb hebne hne hv
    simp only [passageQueryRows, passageFinalEndBook, hlsb, hleb,
      Option.getD_some, if_pos hebne] at hv
    rw [if_neg (fun h => hne h.1), if_neg (fun h => hne h.1),
      if_neg hne] at hv
    have hv2 := List.mem_of_mem_take hv
    rw [mem_stableSort, List.mem_filter] at hv2
    exact (crossBookPred_iff t sb c vs eb ec ev v).mp hv2.2

/-- Witness for claim C2: the concrete range genesis 1:1 - exodus 2:3. -/
theorem c2_crossbook_endpoints_only_witness :
    buildVerseRangeCondition
        { startBook := "genesis", endBook := "exodus", startChapter := 1,
          endChapter := 2, startVerse := 1, endVerse := 3 } "vdcc"
        (VerseRow.mk "vdcc" "leviticus" "Leviticul" 1 1 "x") = true ↔
      ((VerseRow.mk "vdcc" "leviticus" "Leviticul" 1 1 "x").bibleTranslationSlug
          = "vdcc" ∧
        (((VerseRow.mk "vdcc" "leviticus" "Leviticul" 1 1 "x").bookSlug
            = "genesis" ∧ lexLe 1 1 1 1) ∨
          ((VerseRow.mk "vdcc" "leviticus" "Leviticul" 1 1 "x").bookSlug
            = "exodus" ∧ lexLe 1 1 2 3))) :=
  (c2_crossbook_endpoints_only
    { startBook := "genesis", endBook := "exodus", startChapter := 1,
      endChapter := 2, startVerse := 1, endVerse := 3 } "vdcc" []
    (by decide)).1 (VerseRow.mk "vdcc" "leviticus" "Leviticul" 1 1 "x")

/-! ### Claim C4: the 500-row cap -/

/-- A verses table holding 501 rows of one single chapter. -/
def c4Db : List VerseRow :=
  (List.range 501).map (fun i => VerseRow.mk "t" "g" "G" 1 (i + 1) "")

/-- Counterexample to claim C4 as stated: the same-chapter branch of the
passage route applies no limit, so the user-specified range g 1:1-501
returns 501 rows, exceeding the claimed 500-verse cap. -/
theorem c4_counterexample :
    500 < (passageQueryRows c4Db "t" "g" 1 1 none none (some 501)).length := by
  have hne : (1 : Nat) ≠ 501 := by decide
  have hg : lowerStr "g" = "g" := by decide
  have hbranch : passageQueryRows c4Db "t" "g" 1 1 none none (some 501)
      = stableSort verseLe (c4Db.filter (sameChapterPred "t" "g" 1 1 501)) := by
    simp only [passageQueryRows, Option.getD_some, Option.getD_none]
    rw [if_neg (fun hc => hne hc.2.2), if_pos (by constructor <;> decide),
      hg]
  rw [hbranch, length_stableSort]
  have hall : c4Db.filter (sameChapterPred "t" "g" 1 1 501) = c4Db := by
    rw [List.filter_eq_self]
    intro a ha
    simp only [c4Db, List.mem_map, List.mem_range] at ha
    obtain ⟨i, hi, rfl⟩ := ha
    simp [sameChapterPred]
    omega
  rw [hall]
  simp [c4Db]

/-- Claim C4, amended: the multi-chapter and cross-book passage branches are
capped at 500 rows (and the single-verse branch at one row), but the
same-chapter branch applies no cap, so only ranges outside the same-chapter
case are guaranteed at most 500 rows; the scheduler verse query
(`getDailyVerse`) applies no cap at all.  No branch rejects a range. -/
theorem c4_capped_except_same_chapter (dbRows : List VerseRow)
    (t book : String) (chapter verse : Nat) (endBook : Option String)
    (endChapter endVerse : Option Nat)
    (h : ¬(lowerStr book = passageFinalEndBook book endBook ∧
        chapter = endChapter.getD chapter)) :
    (passageQueryRows dbRows t book chapter verse endBook endChapter
        endVerse).length ≤ 500 ∧
    (∀ r : VerseRange,
      (dailyVerseQuery dbRows r t).length
        = (dbRows.filter (buildVerseRangeCondition r t)).length) := by
  constructor
  · simp only [passageQueryRows]
    by_cases h1 : lowerStr book = passageFinalEndBook book endBook ∧
        chapter = endChapter.getD chapter ∧ verse = endVerse.getD verse
    · exact absurd ⟨h1.1, h1.2.1⟩ h
    · rw [if_neg h1]
      by_cases h2 : lowerStr book = passageFinalEndBook book endBook ∧
          chapter = endChapter.getD chapter
      · exact absurd h2 h
      · rw [if_neg h2]
        by_cases h3 : lowerStr book = passageFinalEndBook book endBook
        · rw [if_pos h3]
          exact List.length_take_le 500 _
        · rw [if_neg h3]
          exact List.length_take_le 500 _
  · intro r
    exact length_stableSort _ _

/-- The concrete cross-book range used in the claim C4 witness. -/
def c4Range : VerseRange :=
  VerseRange.mk "g" "h" 1 2 1 3

/-- Witness for claim C4 (amended): a concrete cross-book range query on an
empty table, and the scheduler query length identity at a concrete range. -/
theorem c4_capped_except_same_chapter_witness :
    (passageQueryRows [] "t" "g" 1 1 (some "h") (some 2) (some 3)).length
        ≤ 500 ∧
    (dailyVerseQuery [] c4Range "t").length
      = (List.filter (buildVerseRangeCondition c4Range "t") []).length := by
  have h := c4_capped_except_same_chapter [] "t" "g" 1 1 (some "h") (some 2)
    (some 3) (by decide)
  exact ⟨h.1, h.2 c4Range⟩

/-! ### Claim C5: ordering of produced verse sequences -/

/-- Chapter-then-verse order on rows as a proposition. -/
def cvProp (a b : VerseRow) : Prop :=
  a.chapter < b.chapter ∨ (a.chapter = b.chapter ∧ a.verse ≤ b.verse)

/-- Alphabetical book slug, then chapter, then verse order on rows. -/
def bcvProp (a b : VerseRow) : Prop :=
  strLt a.bookSlug b.bookSlug = true ∨ (a.bookSlug = b.bookSlug ∧ cvProp a b)

theorem chapterVerseLe_iff (a b : VerseRow) :
    chapterVerseLe a b = true ↔ cvProp a b := by
  simp [chapterVerseLe, cvProp]

theorem chapterVerseLe_total (a b : VerseRow) :
    chapterVerseLe a b || chapterVerseLe b a := by
  simp only [Bool.or_eq_true, chapterVerseLe_iff, cvProp]
  omega

theorem chapterVerseLe_trans (a b c : VerseRow) (h1 : chapterVerseLe a b)
    (h2 : chapterVerseLe b c) : chapterVerseLe a c := by
  rw [chapterVerseLe_iff, cvProp] at h1 h2 ⊢
  omega

theorem verseLe_total (a b : VerseRow) : verseLe a b || verseLe b a := by
  simp only [Bool.or_eq_true, verseLe, decide_eq_true_eq]
  omega

theorem verseLe_trans (a b c : VerseRow) (h1 : verseLe a b)
    (h2 : verseLe b c) : verseLe a c := by
  simp only [verseLe, decide_eq_true_eq] at h1 h2 ⊢
  omega

theorem charListLt_irrefl (l : List Char) : charListLt l l = false := by
  induction l with
  | nil => rfl
  | cons a as ih => simp [charListLt, ih]

theorem charListLt_trans (a b c : List Char) (h1 : charListLt a b)
    (h2 : charListLt b c) : charListLt a c := by
  induction a generalizing b c with
  | nil =>
    cases b with
    | nil => simp [charListLt] at h1
    | cons y ys =>
      cases c with
      | nil => simp [charListLt] at h2
      | cons z zs => rfl
  | cons x xs ih =>
    cases b with
    | nil => simp [charListLt] at h1
    | cons y ys =>
      cases c with
      | nil => simp [charListLt] at h2
      | cons z zs =>
        simp only [charListLt] at h1 h2 ⊢
        by_cases hxy : x < y
        · by_cases hyz : y < z
          · rw [if_pos (lt_trans hxy hyz)]
          · simp only [if_neg hyz] at h2
            by_cases hzy : z < y
            · simp only [if_pos hzy] at h2
              exact absurd h2 (by simp)
            · have : y = z := le_antisymm (not_lt.mp hzy) (not_lt.mp hyz)
              rw [if_pos (this ▸ hxy)]
        · simp only [if_neg hxy] at h1
          by_cases hyx : y < x
          · simp only [if_pos hyx] at h1
            exact absurd h1 (by simp)
          · have hxy2 : x = y := le_antisymm (not_lt.mp hyx) (not_lt.mp hxy)
            simp only [if_neg hyx] at h1
            by_cases hyz : y < z
            · rw [if_pos (hxy2 ▸ hyz)]
            · simp only [if_neg hyz] at h2
              by_cases hzy : z < y
              · simp only [if_pos hzy] at h2
                exact absurd h2 (by simp)
              · have hyz2 : y = z := le_antisymm (not_lt.mp hzy) (not_lt.mp hyz)
                have hxz : ¬ x < z := hyz2 ▸ hxy2 ▸ hxy
                have hzx : ¬ z < x := hyz2 ▸ hxy2 ▸ hxy
                simp only [if_neg hzy] at h2
                rw [if_neg hxz, if_neg hzx]
                exact ih ys zs h1 h2

theorem charListLt_total_of_ne (a b : List Char) (h : a ≠ b) :
    charListLt a b || charListLt b a := by
  induction a generalizing b with
  | nil =>
    cases b with
    | nil => exact absurd rfl h
    | cons y ys => simp [charListLt]
  | cons x xs ih =>
    cases b with
    | nil => simp [charListLt]
    | cons y ys =>
      simp only [charListLt, Bool.or_eq_true]
      rcases lt_trichotomy x y with hxy | hxy | hxy
      · exact Or.inl (by rw [if_pos hxy])
      · have hxs : xs ≠ ys := fun he => h (by rw [hxy, he])
        have hnlt : ¬ x < y := by rw [hxy]; exact lt_irrefl y
        have hnlt2 : ¬ y < x := by rw [hxy]; exact lt_irrefl y
        rcases (Bool.or_eq_true _ _).mp (ih ys hxs) with h1 | h1
        · refine Or.inl ?_
          rw [if_neg hnlt, if_neg hnlt2]
          exact h1
        · refine Or.inr ?_
          rw [if_neg hnlt2, if_neg hnlt]
          exact h1
      · exact Or.inr (by rw [if_pos hxy])

theorem strLt_irrefl (a : String) : strLt a a = false :=
  charListLt_irrefl a.data

theorem strLt_total_of_ne (a b : String) (h : a ≠ b) :
    strLt a b || strLt b a :=
  charListLt_total_of_ne a.data b.data
    (fun hd => h (by cases a; cases b; simp_all))

theorem strLt_trans (a b c : String) (h1 : strLt a b) (h2 : strLt b c) :
    strLt a c :=
  charListLt_trans a.data b.data c.data h1 h2

theorem bookChapterVerseLe_iff (a b : VerseRow) :
    bookChapterVerseLe a b = true ↔ bcvProp a b := by
  by_cases hb : a.bookSlug = b.bookSlug
  · have h1 : (a.bookSlug == b.bookSlug) = true := by simp [hb]
    have hL : bookChapterVerseLe a b
        = (if a.chapter == b.chapter then decide (a.verse ≤ b.verse)
            else decide (a.chapter ≤ b.chapter)) := by
      simp only [bookChapterVerseLe, h1, if_true]
    have hR : bcvProp a b ↔ cvProp a b := by
      simp only [bcvProp, hb, strLt_irrefl, Bool.false_eq_true, false_or,
        eq_self_iff_true, true_and]
    rw [hL, hR]
    by_cases hc : a.chapter = b.chapter
    · have h2 : (a.chapter == b.chapter) = true := by simp [hc]
      rw [if_pos h2]
      simp only [decide_eq_true_eq, cvProp, hc, lt_self_iff_false, false_or,
        eq_self_iff_true, true_and]
    · have h2 : (a.chapter == b.chapter) = false := by simp [hc]
      rw [if_neg (by simp [hc])]
      simp only [decide_eq_true_eq, cvProp]
      constructor
      · intro hle
        exact Or.inl (Nat.lt_of_le_of_ne hle hc)
      · rintro (hlt | ⟨he, _⟩)
        · exact Nat.le_of_lt hlt
        · exact absurd he hc
  · have h1 : (a.bookSlug == b.bookSlug) = false := by simp [hb]
    have hL : bookChapterVerseLe a b = strLt a.bookSlug b.bookSlug := by
      simp only [bookChapterVerseLe, h1, Bool.false_eq_true, if_false]
    rw [hL]
    simp only [bcvProp, hb, false_and, or_false]

theorem bookChapterVerseLe_total (a b : VerseRow) :
    bookChapterVerseLe a b || bookChapterVerseLe b a := by
  simp only [Bool.or_eq_true, bookChapterVerseLe_iff, bcvProp, cvProp]
  by_cases hb : a.bookSlug = b.bookSlug
  · simp only [hb, strLt_irrefl, Bool.false_eq_true, false_or,
      eq_self_iff_true, true_and]
    omega
  · rcases Bool.or_eq_true _ _ |>.mp (strLt_total_of_ne _ _ hb) with h | h
    · exact Or.inl (Or.inl h)
    · exact Or.inr (Or.inl h)

theorem bookChapterVerseLe_trans (a b c : VerseRow)
    (h1 : bookChapterVerseLe a b) (h2 : bookChapterVerseLe b c) :
    bookChapterVerseLe a c := by
  rw [bookChapterVerseLe_iff, bcvProp] at h1 h2 ⊢
  rcases h1 with h1 | ⟨e1, w1⟩
  · rcases h2 with h2 | ⟨e2, w2⟩
    · exact Or.inl (strLt_trans _ _ _ h1 h2)
    · exact Or.inl (e2 ▸ h1)
  · rcases h2 with h2 | ⟨e2, w2⟩
    · exact Or.inl (e1 ▸ h2)
    · refine Or.inr ⟨e1.trans e2, ?_⟩
      unfold cvProp at w1 w2 ⊢
      omega

theorem pairwise_take_one (l : List α) (R : α → α → Prop) :
    (l.take 1).Pairwise R := by
  cases l with
  | nil => simp
  | cons a t => simp

/-- The verses table of the claim C5 counterexample: one Matthew 28:1 row
and one Luke 1:1 row. -/
def c5Db : List VerseRow :=
  [VerseRow.mk "t" "matthew" "Matei" 28 1 "a",
   VerseRow.mk "t" "luke" "Luca" 1 1 "b"]

/-- The cross-book range Matthew 28:1 - Luke 1:1 (Matthew precedes Luke in
canonical order, but "luke" sorts before "matthew" alphabetically). -/
def c5Range : VerseRange :=
  VerseRange.mk "matthew" "luke" 28 1 1 1

/-- Counterexample to claim C5 as stated: for the range Matthew 28:1 -
Luke 1:1 both the compiled query (ORDER BY chapter, verse) and the in-memory
re-partition (sorted by alphabetical book slug) return the Luke row first,
although Matthew has the smaller canonical ordinal and is the start book. -/
theorem c5_counterexample :
    (dailyVerseQuery c5Db c5Range "t").map VerseRow.bookSlug
        = ["luke", "matthew"] ∧
    canonicalOrdinal "matthew" < canonicalOrdinal "luke" ∧
    (partitionEntryVerses c5Range c5Db).map VerseRow.bookSlug
      = ["luke", "matthew"] := by
  decide

theorem sameChapterPred_chapter_eq (t book : String)
    (chapter verse endVerse : Nat) (w : VerseRow)
    (h : sameChapterPred t book chapter verse endVerse w = true) :
    w.chapter = chapter := by
  simp only [sameChapterPred, Bool.and_eq_true, beq_iff_eq,
    decide_eq_true_eq] at h
  exact h.1.1.2

/-- Claim C5, amended: every sequence of verses produced for a range is
sorted by chapter then verse (the compiled queries order by chapter and
verse only, ignoring the book), and the in-memory re-partition of the
batched query is sorted by alphabetical book slug, then chapter, then verse.
For a range within a single book these orders agree with the canonical
book-ordinal order; for a cross-book range the books are not emitted in
canonical order (see the counterexample). -/
theorem c5_output_orderings (dbRows : List VerseRow) (t book : String)
    (chapter verse : Nat) (endBook : Option String)
    (endChapter endVerse : Option Nat) (r e : VerseRange)
    (rows : List VerseRow) :
    (passageQueryRows dbRows t book chapter verse endBook endChapter
        endVerse).Pairwise cvProp ∧
    (dailyVerseQuery dbRows r t).Pairwise cvProp ∧
    (partitionEntryVerses e rows).Pairwise bcvProp := by
  refine ⟨?_, ?_, ?_⟩
  · simp only [passageQueryRows]
    by_cases h1 : lowerStr book = passageFinalEndBook book endBook ∧
        chapter = endChapter.getD chapter ∧ verse = endVerse.getD verse
    · rw [if_pos h1]
      exact pairwise_take_one _ _
    · rw [if_neg h1]
      by_cases h2 : lowerStr book = passageFinalEndBook book endBook ∧
          chapter = endChapter.getD chapter
      · rw [if_pos h2]
        have hs := pairwise_stableSort verseLe verseLe_total verseLe_trans
          (dbRows.filter (sameChapterPred t (lowerStr book) chapter verse
            (endVerse.getD verse)))
        refine hs.imp_of_mem ?_
        intro a b ha hb hab
        rw [mem_stableSort, List.mem_filter] at ha hb
        have hca := sameChapterPred_chapter_eq _ _ _ _ _ _ ha.2
        have hcb := sameChapterPred_chapter_eq _ _ _ _ _ _ hb.2
        simp only [verseLe, decide_eq_true_eq] at hab
        exact Or.inr ⟨hca.trans hcb.symm, hab⟩
      · rw [if_neg h2]
        by_cases h3 : lowerStr book = passageFinalEndBook book endBook
        · rw [if_pos h3]
          refine List.Pairwise.sublist (List.take_sublist 500 _) ?_
          exact (pairwise_stableSort chapterVerseLe chapterVerseLe_total
            chapterVerseLe_trans _).imp
            (fun hab => (chapterVerseLe_iff _ _).mp hab)
        · rw [if_neg h3]
          refine List.Pairwise.sublist (List.take_sublist 500 _) ?_
          exact (pairwise_stableSort chapterVerseLe chapterVerseLe_total
            chapterVerseLe_trans _).imp
            (fun hab => (chapterVerseLe_iff _ _).mp hab)
  · exact (pairwise_stableSort chapterVerseLe chapterVerseLe_total
      chapterVerseLe_trans _).imp (fun hab => (chapterVerseLe_iff _ _).mp hab)
  · exact (pairwise_stableSort bookChapterVerseLe bookChapterVerseLe_total
      bookChapterVerseLe_trans _).imp
      (fun hab => (bookChapterVerseLe_iff _ _).mp hab)

/-! ### Claims C6 and C7: book resolution -/

/-- Counterexample to claim C6 as stated: eight canonical slugs start with
the normalized input "1" (in the alphanumeric-only form), yet the resolver
does not fall through to the localized names: it returns the first partial
match "1-samuel". -/
theorem c6_counterexample :
    parseBookFromReference canonicalBookSlugs [] ("1").data "vdcc"
        = some "1-samuel" ∧
    1 < (canonicalBookSlugs.filter (fun s =>
      strStartsWith (normalizeForPartialMatch s)
        (normalizeForPartialMatch "1"))).length := by
  decide

theorem parseBookFromReference_cases (bookSlugs : List String)
    (dbRows : List VerseRow) (bookPart : List Char) (t : String)
    (hexact : normalizedBookPart bookPart ∉ bookSlugs) :
    (∀ s : String,
      bookSlugs.find? (canonicalPartialCond (normalizedBookPart bookPart))
          = some s →
      parseBookFromReference bookSlugs dbRows bookPart t = some s) ∧
    (bookSlugs.find? (canonicalPartialCond (normalizedBookPart bookPart))
        = none →
      parseBookFromReference bookSlugs dbRows bookPart t
        = localizedExactLookup dbRows (normalizedBookPart bookPart) t) := by
  have hc : bookSlugs.contains (normalizedBookPart bookPart) = false := by
    simpa using hexact
  constructor
  · intro s hfind
    simp only [parseBookFromReference, hc, Bool.false_eq_true, if_false,
      hfind]
  · intro hfind
    simp only [parseBookFromReference, hc, Bool.false_eq_true, if_false,
      hfind]

/-- Claim C6, amended: after exact matching fails, the resolver returns the
first canonical slug (in catalog order) satisfying the partial condition
(the slug starts with the normalized input, or the normalized input starts
with the slug's first dash-segment) — with no uniqueness requirement — and
falls through to the translation's localized book names only when no
canonical slug satisfies the condition. -/
theorem c6_first_partial_match (bookSlugs : List String)
    (dbRows : List VerseRow) (bookPart : List Char) (t : String)
    (hexact : normalizedBookPart bookPart ∉ bookSlugs) :
    (∀ s : String,
      bookSlugs.find? (canonicalPartialCond (normalizedBookPart bookPart))
          = some s →
      parseBookFromReference bookSlugs dbRows bookPart t = some s) ∧
    (bookSlugs.find? (canonicalPartialCond (normalizedBookPart bookPart))
        = none →
      parseBookFromReference bookSlugs dbRows bookPart t
        = localizedExactLookup dbRows (normalizedBookPart bookPart) t) :=
  parseBookFromReference_cases bookSlugs dbRows bookPart t hexact

/-- Witness for claim C6 (amended): resolving "1" returns the first of the
eight matching canonical slugs, "1-samuel". -/
theorem c6_first_partial_match_witness :
    parseBookFromReference canonicalBookSlugs [] ("1").data "vdcc"
      = some "1-samuel" :=
  (c6_first_partial_match canonicalBookSlugs [] ("1").data "vdcc"
    (by decide)).1 "1-samuel" (by decide)

/-- The verses table of the claim C7 counterexample: a translation whose
localized book names include "Ioana" and "Ioan Doe", both of which have the
normalized input "ioa" as a prefix. -/
def c7Db : List VerseRow :=
  [VerseRow.mk "vdcc" "john" "Ioana" 1 1 "",
   VerseRow.mk "vdcc" "1-john" "Ioan Doe" 1 1 ""]

/-- Counterexample to claim C7 as stated: two localized names are prefix
matches of the normalized, diacritics-stripped input "ioa", yet the resolver
returns NotFound (`none`) instead of the canonical slug of the shortest
display name — the localized fallback of the resolver wired into the routes
performs no prefix matching at all. -/
theorem c7_counterexample :
    parseBookFromReference canonicalBookSlugs c7Db ("ioa").data "vdcc"
        = none ∧
    1 < (c7Db.filter (fun r =>
      strStartsWith (normalizeForPartialMatch r.bookName)
        (normalizeForPartialMatch "ioa"))).length := by
  decide

/-- Claim C7, amended: when canonical exact and partial matching both fail,
the localized fallback performs only an exact match of the lowercased stored
book name against the normalized input (first matching row in table order);
in particular, when no localized name matches exactly — even if several
localized names have the input as a prefix — resolution returns NotFound. -/
theorem c7_localized_exact_only (bookSlugs : List String)
    (dbRows : List VerseRow) (bookPart : List Char) (t : String)
    (hexact : normalizedBookPart bookPart ∉ bookSlugs)
    (hpart : bookSlugs.find?
      (canonicalPartialCond (normalizedBookPart bookPart)) = none) :
    parseBookFromReference bookSlugs dbRows bookPart t
        = localizedExactLookup dbRows (normalizedBookPart bookPart) t ∧
    (dbRows.find? (fun r =>
        lowerStr r.bookName == normalizedBookPart bookPart &&
        r.bibleTranslationSlug == t) = none →
      parseBookFromReference bookSlugs dbRows bookPart t = none) := by
  have h1 :=
    (parseBookFromReference_cases bookSlugs dbRows bookPart t hexact).2
      hpart
  refine ⟨h1, fun hnone => ?_⟩
  rw [h1, localizedExactLookup, hnone, Option.map_none']

/-- Witness for claim C7 (amended): the concrete table with names "Ioana"
and "Ioan Doe" and the input "ioa". -/
theorem c7_localized_exact_only_witness :
    parseBookFromReference canonicalBookSlugs c7Db ("ioa").data "vdcc"
        = localizedExactLookup c7Db (normalizedBookPart ("ioa").data)
            "vdcc" ∧
    (c7Db.find? (fun r =>
        lowerStr r.bookName == normalizedBookPart ("ioa").data &&
        r.bibleTranslationSlug == "vdcc") = none →
      parseBookFromReference canonicalBookSlugs c7Db ("ioa").data "vdcc"
        = none) :=
  c7_localized_exact_only canonicalBookSlugs c7Db ("ioa").data "vdcc"
    (by decide) (by decide)

/-! ### Claim C9: candidate filtering and weighted selection -/

/-- The candidate set of a scheduled date: the pool entries with the date's
`MM-DD` key as `publishDate` when that subset is non-empty, the whole pool
otherwise. -/
def candidatesForDate (pool : List PoolEntry) (monthDay : String) :
    List PoolEntry :=
  let versesWithPublishDate :=
    pool.filter (fun p => p.publishDate == some monthDay)
  if versesWithPublishDate.length > 0 then versesWithPublishDate else pool

theorem selectForDate_eq_candidates (pool : List PoolEntry)
    (monthDay : String) (rnd : Nat) :
    selectForDate pool monthDay rnd
      = selectWeightedRandom (candidatesForDate pool monthDay) rnd := by
  simp only [selectForDate, candidatesForDate]
  by_cases h :
      (pool.filter (fun p => p.publishDate == some monthDay)).length > 0
  · rw [if_pos h, if_pos h]
  · rw [if_neg h, if_neg h]

theorem count_older_lt_of_mem_take (R : α → α → Bool) (l : List α) (k : Nat)
    (e : α) (hpair : l.Pairwise (fun a b => R a b = true))
    (he : e ∈ l.take k) :
    (l.filter (fun q => R q e && !R e q)).length < k := by
  induction l generalizing k with
  | nil => simp at he
  | cons x xs ih =>
    cases k with
    | zero => simp at he
    | succ k =>
      rw [List.take_succ_cons, List.mem_cons] at he
      have hx : ∀ y ∈ xs, R x y = true :=
        fun y hy => List.rel_of_pairwise_cons hpair hy
      rcases he with rfl | he
      · have hhead : (R e e && !R e e) = false := by
          cases hR : R e e <;> simp [hR]
        have hrest : xs.filter (fun q => R q e && !R e q) = [] := by
          rw [List.filter_eq_nil_iff]
          intro q hq
          simp [hx q hq]
        rw [List.filter_cons]
        simp [hhead, hrest]
      · have hb := ih k hpair.of_cons he
        rw [List.filter_cons]
        split
        · simpa using Nat.succ_lt_succ hb
        · exact Nat.lt_trans hb (Nat.lt_succ_self _)

theorem exists_index_of_mem_take (l : List α) (k : Nat) (e : α)
    (he : e ∈ l.take k) :
    ∃ i, ∃ h : i < l.length, i < k ∧ l[i] = e := by
  induction l generalizing k with
  | nil => simp at he
  | cons x xs ih =>
    cases k with
    | zero => simp at he
    | succ k =>
      rw [List.take_succ_cons, List.mem_cons] at he
      rcases he with rfl | he
      · exact ⟨0, by simp, by omega, rfl⟩
      · obtain ⟨i, hi, hik, hval⟩ := ih k he
        exact ⟨i + 1, by simpa using Nat.succ_lt_succ hi,
          by omega, by simpa using hval⟩

theorem lastLe_total (a b : PoolEntry) : lastLe a b || lastLe b a := by
  unfold lastLe
  cases a.lastScheduledAt <;> cases b.lastScheduledAt <;> simp <;> omega

theorem lastLe_trans (a b c : PoolEntry) (h1 : lastLe a b)
    (h2 : lastLe b c) : lastLe a c := by
  unfold lastLe at h1 h2 ⊢
  cases ha : a.lastScheduledAt <;> cases hb : b.lastScheduledAt <;>
    cases hc : c.lastScheduledAt <;> simp_all <;> omega

theorem candidatesForDate_ne_nil (pool : List PoolEntry) (monthDay : String)
    (hne : pool ≠ []) : candidatesForDate pool monthDay ≠ [] := by
  unfold candidatesForDate
  dsimp only
  split
  · next h => exact List.length_pos.mp h
  · exact hne

theorem selectWeightedRandom_spec (cands : List PoolEntry) (rnd : Nat)
    (h : cands ≠ []) :
    ∃ e ∈ cands, e.id = selectWeightedRandom cands rnd ∧
      (cands.filter (fun q => lastLt q e)).length < 90 := by
  have hpair := pairwise_stableSort lastLe lastLe_total lastLe_trans cands
  set sorted := stableSort lastLe cands with hsorted
  set candidates := sorted.take (min 90 sorted.length) with hcands
  have hlpos : 0 < sorted.length := by
    rw [hsorted, length_stableSort]
    exact List.length_pos.mpr h
  have hclen : candidates.length = min 90 sorted.length := by
    rw [hcands, List.length_take]
    exact Nat.min_eq_left (Nat.min_le_right _ _)
  have hcpos : 0 < candidates.length := by
    rw [hclen]
    exact Nat.lt_min.mpr ⟨by omega, hlpos⟩
  have hidx : rnd % candidates.length < candidates.length :=
    Nat.mod_lt _ hcpos
  refine ⟨candidates[rnd % candidates.length], ?_, ?_, ?_⟩
  · have hm : candidates[rnd % candidates.length] ∈ candidates :=
      List.getElem_mem hidx
    have hm2 : candidates[rnd % candidates.length] ∈ sorted :=
      List.mem_of_mem_take hm
    exact (mem_stableSort lastLe cands _).mp hm2
  · have hgetd : candidates.getD (rnd % candidates.length) default
        = candidates[rnd % candidates.length] := by
      rw [List.getD_eq_getElem?_getD, List.getElem?_eq_getElem hidx,
        Option.getD_some]
    show candidates[rnd % candidates.length].id
      = (candidates.getD (rnd % candidates.length) default).id
    rw [hgetd]
  · have hmt : candidates[rnd % candidates.length]
        ∈ sorted.take (min 90 sorted.length) :=
      List.getElem_mem hidx
    have hcount := count_older_lt_of_mem_take lastLe sorted
      (min 90 sorted.length) _ hpair hmt
    have hperm := (stableSort_perm lastLe cands).filter
      (fun q => lastLe q candidates[rnd % candidates.length] &&
        !lastLe candidates[rnd % candidates.length] q)
    show (cands.filter (fun q =>
      lastLe q candidates[rnd % candidates.length] &&
      !lastLe candidates[rnd % candidates.length] q)).length < 90
    rw [← hperm.length_eq]
    exact Nat.lt_of_lt_of_le hcount (Nat.min_le_left _ _)

theorem selectWeightedRandom_reaches (cands : List PoolEntry) (e : PoolEntry)
    (he : e ∈ (stableSort lastLe cands).take
      (min 90 (stableSort lastLe cands).length)) :
    ∃ r, selectWeightedRandom cands r = e.id := by
  obtain ⟨i, hi, hik, hval⟩ := exists_index_of_mem_take _ _ _ he
  set sorted := stableSort lastLe cands with hsorted
  set candidates := sorted.take (min 90 sorted.length) with hcands
  have hclen : candidates.length = min 90 sorted.length := by
    rw [hcands, List.length_take]
    exact Nat.min_eq_left (Nat.min_le_right _ _)
  have hik2 : i < candidates.length := by
    rw [hclen]
    exact hik
  have hidx : i % candidates.length = i := Nat.mod_eq_of_lt hik2
  refine ⟨i, ?_⟩
  show (candidates.getD (i % candidates.length) default).id = e.id
  rw [hidx, List.getD_eq_getElem?_getD]
  have hq : candidates[i]? = some e := by
    rw [hcands, List.getElem?_take_of_lt hik, List.getElem?_eq_getElem hi]
    exact congrArg some hval
  rw [hq, Option.getD_some]

/-- Claim C9: for every scheduled date, the candidate set is the subset of
pool entries whose `publishDate` equals the date's `MM-DD` key when that
subset is non-empty and the whole pool otherwise; the selected entry is
always one of the `min 90 n` least-recently-scheduled candidates — fewer
than 90 candidates are strictly less recently scheduled than it, with null
`lastScheduledAt` sorting before every timestamp — and every entry of that
eligible window is selected under some random draw (`Math.random` is
modelled as a nondeterministic draw). -/
theorem c9_scheduler_selection (pool : List PoolEntry) (monthDay : String)
    (rnd : Nat) (hne : pool ≠ []) :
    (∃ e ∈ candidatesForDate pool monthDay,
      e.id = selectForDate pool monthDay rnd ∧
      ((candidatesForDate pool monthDay).filter
        (fun q => lastLt q e)).length < 90) ∧
    (∀ e ∈ (stableSort lastLe (candidatesForDate pool monthDay)).take
        (min 90 (stableSort lastLe (candidatesForDate pool monthDay)).length),
      ∃ r, selectForDate pool monthDay r = e.id) := by
  constructor
  · rw [selectForDate_eq_candidates]
    exact selectWeightedRandom_spec _ rnd
      (candidatesForDate_ne_nil pool monthDay hne)
  · intro e he
    obtain ⟨r, hr⟩ := selectWeightedRandom_reaches _ e he
    refine ⟨r, ?_⟩
    rw [selectForDate_eq_candidates]
    exact hr

/-- The pool of the claim C9 witness: one entry fixed to March 7 and already
scheduled once, one never-scheduled free entry. -/
def c9Pool : List PoolEntry :=
  [PoolEntry.mk 1 (some "03-07") (some 5) 2, PoolEntry.mk 2 none none 0]

/-- Witness for claim C9: the concrete pool on the date key "12-25" (no
fixed-date entry matches, so the candidate set is the whole pool). -/
theorem c9_scheduler_selection_witness :
    (∃ e ∈ candidatesForDate c9Pool "12-25",
      e.id = selectForDate c9Pool "12-25" 0 ∧
      ((candidatesForDate c9Pool "12-25").filter
        (fun q => lastLt q e)).length < 90) ∧
    (∀ e ∈ (stableSort lastLe (candidatesForDate c9Pool "12-25")).take
        (min 90 (stableSort lastLe (candidatesForDate c9Pool "12-25")).length),
      ∃ r, selectForDate c9Pool "12-25" r = e.id) :=
  c9_scheduler_selection c9Pool "12-25" 0 (by decide)

/-! ### Claim C10: the scheduling buffer -/

theorem scheduleMonth_rows (pool : List PoolEntry) (y m : Nat)
    (rnds : Nat → Nat) (now : Nat) (h : pool ≠ []) :
    (scheduleMonthlyVerses pool y m rnds now).1
      = (List.range (daysInMonth y m)).map (fun i =>
          ScheduledRow.mk (DateYMD.mk y m (i + 1))
            (selectForDate pool (mmddKey m (i + 1)) (rnds i))) := by
  unfold scheduleMonthlyVerses
  rw [if_neg (by simpa using h)]

theorem scheduleMonth_pool_ids (pool : List PoolEntry) (y m : Nat)
    (rnds : Nat → Nat) (now : Nat) :
    ((scheduleMonthlyVerses pool y m rnds now).2).map PoolEntry.id
      = pool.map PoolEntry.id := by
  unfold scheduleMonthlyVerses
  split
  · rfl
  · dsimp only
    rw [List.map_map]
    refine List.map_congr_left ?_
    intro p _
    simp only [Function.comp_apply]
    split <;> rfl

theorem scheduleMonth_pool_ne_nil (pool : List PoolEntry) (y m : Nat)
    (rnds : Nat → Nat) (now : Nat) (h : pool ≠ []) :
    (scheduleMonthlyVerses pool y m rnds now).2 ≠ [] := by
  intro hc
  have := scheduleMonth_pool_ids pool y m rnds now
  rw [hc] at this
  exact h (List.map_eq_nil_iff.mp this.symm)

theorem selectForDate_mem_ids (pool : List PoolEntry) (monthDay : String)
    (rnd : Nat) (h : pool ≠ []) :
    ∃ p ∈ pool, p.id = selectForDate pool monthDay rnd := by
  rw [selectForDate_eq_candidates]
  obtain ⟨e, he, heid, _⟩ := selectWeightedRandom_spec
    (candidatesForDate pool monthDay) rnd
    (candidatesForDate_ne_nil pool monthDay h)
  refine ⟨e, ?_, heid⟩
  revert he
  unfold candidatesForDate
  dsimp only
  split
  · exact fun he => List.mem_of_mem_filter he
  · exact id

theorem scheduleMonth_rows_month (pool : List PoolEntry) (y m : Nat)
    (rnds : Nat → Nat) (now : Nat) :
    ∀ row ∈ (scheduleMonthlyVerses pool y m rnds now).1,
      row.date.year = y ∧ row.date.month = m := by
  intro row hrow
  unfold scheduleMonthlyVerses at hrow
  split at hrow
  · simp at hrow
  · dsimp only at hrow
    obtain ⟨i, _, rfl⟩ := List.mem_map.mp hrow
    exact ⟨rfl, rfl⟩

theorem scheduleMonth_rows_cover (pool : List PoolEntry) (y m : Nat)
    (rnds : Nat → Nat) (now : Nat) (h : pool ≠ []) (d : Nat) (h1 : 1 ≤ d)
    (h2 : d ≤ daysInMonth y m) :
    ∃ row ∈ (scheduleMonthlyVerses pool y m rnds now).1,
      row.date = DateYMD.mk y m d := by
  rw [scheduleMonth_rows pool y m rnds now h]
  refine ⟨ScheduledRow.mk (DateYMD.mk y m (d - 1 + 1))
    (selectForDate pool (mmddKey m (d - 1 + 1)) (rnds (d - 1))), ?_, ?_⟩
  · exact List.mem_map.mpr ⟨d - 1, List.mem_range.mpr (by omega), rfl⟩
  · simp only [ScheduledRow.mk.injEq]
    congr 1
    omega

theorem scheduleMonth_rows_valid (pool : List PoolEntry) (y m : Nat)
    (rnds : Nat → Nat) (now : Nat) (h : pool ≠ []) :
    ∀ row ∈ (scheduleMonthlyVerses pool y m rnds now).1,
      ∃ p ∈ pool, p.id = row.versePoolId := by
  intro row hrow
  rw [scheduleMonth_rows pool y m rnds now h] at hrow
  obtain ⟨i, _, rfl⟩ := List.mem_map.mp hrow
  exact selectForDate_mem_ids pool (mmddKey m (i + 1)) (rnds i) h

theorem scheduleMonth_rows_pairwise (pool : List PoolEntry) (y m : Nat)
    (rnds : Nat → Nat) (now : Nat) :
    ((scheduleMonthlyVerses pool y m rnds now).1).Pairwise
      (fun a b => a.date ≠ b.date) := by
  unfold scheduleMonthlyVerses
  split
  · simp
  · dsimp only
    rw [List.pairwise_map]
    refine List.Pairwise.imp ?_ (List.pairwise_lt_range _)
    intro i j hij
    simp only [ne_eq, DateYMD.mk.injEq, not_and]
    intro _ _
    omega

/-- The month after a given month is computed by one more application of
`nextMonthOf`. -/
def monthAfterOf (year month : Nat) : Nat × Nat :=
  nextMonthOf (nextMonthOf year month).1 (nextMonthOf year month).2

theorem nextMonthOf_month_ne (y m : Nat) :
    (nextMonthOf y m).2 ≠ (monthAfterOf y m).2 := by
  unfold monthAfterOf nextMonthOf
  by_cases h : m = 12
  · simp [h]
  · simp only [h, if_false]
    by_cases h2 : m + 1 = 12
    · simp [h2]
    · simp only [h2, if_false]
      omega

theorem ensureScheduledVerses_first_run (pool : List PoolEntry)
    (cy cm : Nat) (rnds1 rnds2 : Nat → Nat) (now : Nat) :
    (ensureScheduledVerses [] pool cy cm rnds1 rnds2 now).1
      = (scheduleMonthlyVerses pool (nextMonthOf cy cm).1
          (nextMonthOf cy cm).2 rnds1 now).1
        ++ (scheduleMonthlyVerses
            (scheduleMonthlyVerses pool (nextMonthOf cy cm).1
              (nextMonthOf cy cm).2 rnds1 now).2
            (monthAfterOf cy cm).1 (monthAfterOf cy cm).2 rnds2 now).1 := by
  unfold ensureScheduledVerses monthAfterOf
  simp [hasRowsForMonth]

theorem ensureScheduledVerses_subsequent (state : List ScheduledRow)
    (pool : List PoolEntry) (cy cm : Nat) (rnds1 rnds2 : Nat → Nat)
    (now : Nat)
    (h : hasRowsForMonth state (nextMonthOf cy cm).1 (nextMonthOf cy cm).2
      = true) :
    (ensureScheduledVerses state pool cy cm rnds1 rnds2 now).1
      = state ++ (if hasRowsForMonth state (monthAfterOf cy cm).1
            (monthAfterOf cy cm).2 then []
          else (scheduleMonthlyVerses pool (monthAfterOf cy cm).1
            (monthAfterOf cy cm).2 rnds2 now).1) := by
  unfold ensureScheduledVerses monthAfterOf
  simp only [h, Bool.not_true, Bool.false_eq_true, if_false]
  by_cases h2 : hasRowsForMonth state
      (nextMonthOf (nextMonthOf cy cm).1 (nextMonthOf cy cm).2).1
      (nextMonthOf (nextMonthOf cy cm).1 (nextMonthOf cy cm).2).2
  · simp [h2]
  · simp [h2]

/-- Claim C10: calling `ensureScheduledVerses` on an empty schedule produces
a row for every calendar day of the next month and of the month after, with
pairwise distinct dates, every row referencing an id of a pool entry; on an
invocation where next month already has rows, the new state is the old state
plus rows only for the month after next (possibly none), so the buffer grows
by at most one month. -/
theorem c10_ensure_buffer (pool : List PoolEntry) (cy cm : Nat)
    (rnds1 rnds2 : Nat → Nat) (now : Nat) (hpool : pool ≠ []) :
    ((∀ d, 1 ≤ d →
        d ≤ daysInMonth (nextMonthOf cy cm).1 (nextMonthOf cy cm).2 →
        ∃ row ∈ (ensureScheduledVerses [] pool cy cm rnds1 rnds2 now).1,
          row.date = DateYMD.mk (nextMonthOf cy cm).1 (nextMonthOf cy cm).2
            d) ∧
      (∀ d, 1 ≤ d →
        d ≤ daysInMonth (monthAfterOf cy cm).1 (monthAfterOf cy cm).2 →
        ∃ row ∈ (ensureScheduledVerses [] pool cy cm rnds1 rnds2 now).1,
          row.date = DateYMD.mk (monthAfterOf cy cm).1 (monthAfterOf cy cm).2
            d) ∧
      ((ensureScheduledVerses [] pool cy cm rnds1 rnds2 now).1.Pairwise
        (fun a b => a.date ≠ b.date)) ∧
      (∀ row ∈ (ensureScheduledVerses [] pool cy cm rnds1 rnds2 now).1,
        ∃ p ∈ pool, p.id = row.versePoolId)) ∧
    (∀ state : List ScheduledRow,
      hasRowsForMonth state (nextMonthOf cy cm).1 (nextMonthOf cy cm).2
        = true →
      ∃ added : List ScheduledRow,
        (ensureScheduledVerses state pool cy cm rnds1 rnds2 now).1
          = state ++ added ∧
        ∀ row ∈ added, row.date.year = (monthAfterOf cy cm).1 ∧
          row.date.month = (monthAfterOf cy cm).2) := by
  have hpool2 := scheduleMonth_pool_ne_nil pool (nextMonthOf cy cm).1
    (nextMonthOf cy cm).2 rnds1 now hpool
  constructor
  · refine ⟨?_, ?_, ?_, ?_⟩
    · intro d h1 h2
      rw [ensureScheduledVerses_first_run]
      obtain ⟨row, hrow, hdate⟩ := scheduleMonth_rows_cover pool
        (nextMonthOf cy cm).1 (nextMonthOf cy cm).2 rnds1 now hpool d h1 h2
      exact ⟨row, List.mem_append_left _ hrow, hdate⟩
    · intro d h1 h2
      rw [ensureScheduledVerses_first_run]
      obtain ⟨row, hrow, hdate⟩ := scheduleMonth_rows_cover _
        (monthAfterOf cy cm).1 (monthAfterOf cy cm).2 rnds2 now hpool2 d h1
        h2
      exact ⟨row, List.mem_append_right _ hrow, hdate⟩
    · rw [ensureScheduledVerses_first_run]
      rw [List.pairwise_append]
      refine ⟨scheduleMonth_rows_pairwise _ _ _ _ _,
        scheduleMonth_rows_pairwise _ _ _ _ _, ?_⟩
      intro a ha b hb heq
      have hma := (scheduleMonth_rows_month _ _ _ _ _ a ha).2
      have hmb := (scheduleMonth_rows_month _ _ _ _ _ b hb).2
      apply nextMonthOf_month_ne cy cm
      rw [← hma, ← hmb, heq]
    · intro row hrow
      rw [ensureScheduledVerses_first_run] at hrow
      rcases List.mem_append.mp hrow with hrow | hrow
      · exact scheduleMonth_rows_valid pool _ _ rnds1 now hpool row hrow
      · obtain ⟨p, hp, hpid⟩ := scheduleMonth_rows_valid _ _ _ rnds2 now
          hpool2 row hrow
        have hmem : p.id ∈ ((scheduleMonthlyVerses pool (nextMonthOf cy cm).1
            (nextMonthOf cy cm).2 rnds1 now).2).map PoolEntry.id :=
          List.mem_map.mpr ⟨p, hp, rfl⟩
        rw [scheduleMonth_pool_ids] at hmem
        obtain ⟨q, hq, hqid⟩ := List.mem_map.mp hmem
        exact ⟨q, hq, hqid.trans hpid⟩
  · intro state h
    rw [ensureScheduledVerses_subsequent state pool cy cm rnds1 rnds2 now h]
    refine ⟨_, rfl, ?_⟩
    intro row hrow
    split at hrow
    · simp at hrow
    · exact scheduleMonth_rows_month pool _ _ rnds2 now row hrow

/-- The singleton pool of the claim C10 witness. -/
def c10Pool : List PoolEntry :=
  [PoolEntry.mk 1 none none 0]

/-- A fixed random-draw sequence for the claim C10 witness. -/
def c10Rnds : Nat → Nat := fun _ => 0

/-- Witness for claim C10: running the buffer fill in December 2025 yields a
row for January 1, 2026 (the year rollover of the next-month computation). -/
theorem c10_ensure_buffer_witness :
    ∃ row ∈ (ensureScheduledVerses [] c10Pool 2025 12 c10Rnds c10Rnds 0).1,
      row.date = DateYMD.mk 2026 1 1 :=
  (c10_ensure_buffer c10Pool 2025 12 c10Rnds c10Rnds 0 (by decide)).1.1 1
    (by decide) (by decide)

/-! ### Claim C1: the single-verse round trip

The supporting lemmas show that `cleanReference` leaves a reference string
of the shape `B ++ " " ++ c ++ ":" ++ v` unchanged when `B` consists of
lowercase letters and digits and `c`, `v` are non-empty digit strings, and
that the part regex then splits it into exactly `B`, `c` and `v`. -/

/-- The characters allowed in a dash-free canonical book slug: lowercase
ASCII letters and digits. -/
def plainChars : List Char :=
  ['a', 'b', 'c', 'd', 'e', 'f', 'g', 'h', 'i', 'j', 'k', 'l', 'm', 'n',
   'o', 'p', 'q', 'r', 's', 't', 'u', 'v', 'w', 'x', 'y', 'z',
   '0', '1', '2', '3', '4', '5', '6', '7', '8', '9']

theorem plainChar_facts : ∀ ch ∈ plainChars,
    isWsChar ch = false ∧ ch.toLower = ch ∧ ch ≠ '-' ∧ ch ≠ '>' ∧
    ch ≠ ':' ∧ dotChar ch = true := by
  decide

theorem digitChar_facts : ∀ ch ∈ digitChars,
    Char.isDigit ch = true ∧ isWsChar ch = false ∧ ch ≠ ':' ∧ ch ≠ '-' ∧
    ch ≠ '>' ∧ ch ≠ 't' ∧ ch ≠ 'T' ∧ dotChar ch = true ∧
    ch.toLower = ch := by
  decide

theorem catalog_chars : ∀ s ∈ canonicalBookSlugs, ∀ ch ∈ s.data,
    ch ∈ plainChars ∨ ch = '-' := by
  decide

theorem trimWs_eq_self (l : List Char)
    (h1 : ∀ x, l.head? = some x → isWsChar x = false)
    (h2 : ∀ x, l.getLast? = some x → isWsChar x = false) :
    trimWs l = l := by
  unfold trimWs
  have hd : l.dropWhile isWsChar = l := by
    cases l with
    | nil => rfl
    | cons a t => simp [List.dropWhile_cons, h1 a rfl]
  rw [hd]
  have hr : l.reverse.dropWhile isWsChar = l.reverse := by
    cases hrev : l.reverse with
    | nil => rfl
    | cons a t =>
      have hlast : l.getLast? = some a := by
        rw [← List.head?_reverse, hrev]
        rfl
      simp [List.dropWhile_cons, h2 a hlast]
  rw [hr, List.reverse_reverse]

theorem squeezeWs_eq_self (l : List Char)
    (h1 : ∀ ch ∈ l, isWsChar ch = true → ch = ' ')
    (h2 : l.Chain' (fun a b => ¬(isWsChar a = true ∧ isWsChar b = true))) :
    squeezeWs l = l := by
  induction l with
  | nil => rfl
  | cons a t ih =>
    cases t with
    | nil =>
      simp only [squeezeWs]
      by_cases hws : isWsChar a = true
      · rw [if_pos hws, h1 a (List.mem_singleton_self a) hws]
      · rw [if_neg hws]
    | cons b t2 =>
      have hab : ¬(isWsChar a = true ∧ isWsChar b = true) :=
        (List.chain'_cons.mp h2).1
      have hcond : (isWsChar a && isWsChar b) = false := by
        cases ha : isWsChar a
        · simp
        · cases hb2 : isWsChar b
          · simp
          · exact absurd ⟨ha, hb2⟩ hab
      simp only [squeezeWs, hcond, Bool.false_eq_true, if_false]
      have hh : (if isWsChar a then ' ' else a) = a := by
        by_cases hws : isWsChar a = true
        · rw [if_pos hws, h1 a (List.mem_cons_self a (b :: t2)) hws]
        · rw [if_neg hws]
      rw [hh, ih (fun ch hc hw => h1 ch (List.mem_cons_of_mem a hc) hw)
        (List.chain'_cons.mp h2).2]

theorem replaceScan_cons (f : List Char → Option (List Char)) (rep : Char)
    (fu : Nat) (a : Char) (t : List Char) :
    replaceScan f rep (fu + 1) (a :: t)
      = match f (a :: t) with
        | some rem => rep :: replaceScan f rep fu rem
        | none => a :: replaceScan f rep fu t := rfl

theorem replaceScan_of_forall_none (f : List Char → Option (List Char))
    (rep : Char) (l : List Char) (h : ∀ n, f (l.drop n) = none)
    (fuel : Nat) : replaceScan f rep fuel l = l := by
  induction fuel generalizing l with
  | zero => rfl
  | succ fu ih =>
    cases l with
    | nil => rfl
    | cons a t =>
      have h0 : f (a :: t) = none := h 0
      rw [replaceScan_cons, h0]
      show a :: replaceScan f rep fu t = a :: t
      exact congrArg (a :: ·) (ih t (fun n => h (n + 1)))

theorem replaceScan_append (f : List Char → Option (List Char)) (rep : Char)
    (a b : List Char) (h : ∀ n, n < a.length → f (a.drop n ++ b) = none) :
    ∀ fuel, a.length ≤ fuel →
      replaceScan f rep fuel (a ++ b)
        = a ++ replaceScan f rep (fuel - a.length) b := by
  induction a generalizing b with
  | nil =>
    intro fuel _
    simp
  | cons x xs ih =>
    intro fuel hfuel
    cases fuel with
    | zero => exact absurd hfuel (by simp)
    | succ fu =>
      have h0 : f (x :: (xs ++ b)) = none := h 0 (by simp)
      rw [List.cons_append, replaceScan_cons, h0]
      show x :: replaceScan f rep fu (xs ++ b)
        = x :: xs ++ replaceScan f rep (fu + 1 - (xs.length + 1)) b
      have hrec := ih b
        (fun n hn => h (n + 1) (by simpa using Nat.succ_lt_succ hn)) fu
        (by simpa using hfuel)
      rw [List.cons_append, hrec, Nat.succ_sub_succ]

theorem dropWhile_wsfree (l : List Char)
    (h : ∀ ch ∈ l, isWsChar ch = false) : l.dropWhile isWsChar = l := by
  cases l with
  | nil => rfl
  | cons a t => simp [List.dropWhile_cons, h a (List.mem_cons_self a t)]

theorem matchArrowAt_none_of_head (l : List Char) (d : Char) (r : List Char)
    (hdrop : l.dropWhile isWsChar = d :: r) (hd : d ≠ '-') :
    matchArrowAt l = none := by
  simp [matchArrowAt, hdrop, hd]

theorem matchSepAt_none_of_head (x : Char) (l : List Char) (d : Char)
    (r : List Char) (hdrop : l.dropWhile isWsChar = d :: r) (hd : d ≠ x) :
    matchSepAt x l = none := by
  simp [matchSepAt, hdrop, hd]

theorem matchToAt_none_head_nonws (a : Char) (t : List Char)
    (hws : isWsChar a = false) : matchToAt (a :: t) = none := by
  simp [matchToAt, hws]

theorem matchToAt_none_after_ws (l : List Char) (d : Char) (r : List Char)
    (hdrop : l.dropWhile isWsChar = d :: r) (ht : d ≠ 't') (hT : d ≠ 'T') :
    matchToAt l = none := by
  cases l with
  | nil => rfl
  | cons a t =>
    simp only [matchToAt]
    by_cases hws : isWsChar a = true
    · rw [if_pos hws]
      simp [hdrop, ht, hT]
    · rw [if_neg hws]

theorem replaceScan_sep_wsfree (x : Char) (l : List Char)
    (h : ∀ ch ∈ l, isWsChar ch = false) (fuel : Nat) :
    replaceScan (matchSepAt x) x fuel l = l := by
  induction fuel generalizing l with
  | zero => rfl
  | succ fu ih =>
    cases l with
    | nil => rfl
    | cons a t =>
      have ht : ∀ ch ∈ t, isWsChar ch = false :=
        fun ch hc => h ch (List.mem_cons_of_mem a hc)
      have hdrop : (a :: t).dropWhile isWsChar = a :: t :=
        dropWhile_wsfree _ h
      have hdt : t.dropWhile isWsChar = t := dropWhile_wsfree _ ht
      simp only [replaceScan, matchSepAt, hdrop]
      by_cases hax : a = x
      · subst hax
        simp only [List.head?_cons, beq_self_eq_true, if_true, List.tail_cons,
          hdt]
        exact congrArg (a :: ·) (ih t ht)
      · have : ((a :: t).head? == some x) = false := by simp [hax]
        simp only [List.head?_cons] at this
        simp only [List.head?_cons, this, Bool.false_eq_true, if_false]
        exact congrArg (a :: ·) (ih t ht)

theorem chain'_nonws (l : List Char)
    (h : ∀ ch ∈ l, isWsChar ch = false) :
    l.Chain' (fun a b => ¬(isWsChar a = true ∧ isWsChar b = true)) := by
  induction l with
  | nil => exact List.chain'_nil
  | cons a t ih =>
    apply List.chain'_cons'.mpr
    refine ⟨?_, ih (fun ch hc => h ch (List.mem_cons_of_mem a hc))⟩
    intro y _
    rintro ⟨hwa, _⟩
    rw [h a (List.mem_cons_self a t)] at hwa
    exact Bool.false_ne_true hwa

theorem all_matchers_none_plain (x : Char) (r : List Char)
    (hx : x ∈ plainChars) :
    matchArrowAt (x :: r) = none ∧ matchToAt (x :: r) = none ∧
    matchSepAt ':' (x :: r) = none ∧ matchSepAt '-' (x :: r) = none := by
  have hf := plainChar_facts x hx
  have hdrop : (x :: r).dropWhile isWsChar = x :: r := by
    simp [List.dropWhile_cons, hf.1]
  exact ⟨matchArrowAt_none_of_head _ _ _ hdrop hf.2.2.1,
    matchToAt_none_head_nonws x r hf.1,
    matchSepAt_none_of_head ':' _ _ _ hdrop hf.2.2.2.2.1,
    matchSepAt_none_of_head '-' _ _ _ hdrop hf.2.2.1⟩

theorem all_matchers_none_space (c0 : Char) (hc0 : c0 ∈ digitChars)
    (rest : List Char) :
    matchArrowAt (' ' :: c0 :: rest) = none ∧
    matchToAt (' ' :: c0 :: rest) = none ∧
    matchSepAt ':' (' ' :: c0 :: rest) = none ∧
    matchSepAt '-' (' ' :: c0 :: rest) = none := by
  have hf := digitChar_facts c0 hc0
  have hsp : isWsChar ' ' = true := rfl
  have hdrop : (' ' :: c0 :: rest).dropWhile isWsChar = c0 :: rest := by
    rw [List.dropWhile_cons, if_pos hsp, List.dropWhile_cons,
      if_neg (by simp [hf.2.1])]
  exact ⟨matchArrowAt_none_of_head _ _ _ hdrop hf.2.2.2.1,
    matchToAt_none_after_ws _ _ _ hdrop hf.2.2.2.2.2.1 hf.2.2.2.2.2.2.1,
    matchSepAt_none_of_head ':' _ _ _ hdrop hf.2.2.1,
    matchSepAt_none_of_head '-' _ _ _ hdrop hf.2.2.2.1⟩

theorem forall_drop_none (l : List Char)
    (f : List Char → Option (List Char)) (hnil : f [] = none)
    (hcons : ∀ x r, x ∈ l → f (x :: r) = none) :
    ∀ n, f (l.drop n) = none := by
  intro n
  by_cases h : n < l.length
  · rw [List.drop_eq_getElem_cons h]
    exact hcons _ _ (List.getElem_mem h)
  · rw [List.drop_eq_nil_of_le (by omega)]
    exact hnil

theorem refstring_prefix_cond (Bl : List Char)
    (hBp : ∀ ch ∈ Bl, ch ∈ plainChars) (c0 : Char) (hc0 : c0 ∈ digitChars)
    (rest : List Char) (f : List Char → Option (List Char))
    (hplain : ∀ x r, x ∈ plainChars → f (x :: r) = none)
    (hspace : ∀ r, f (' ' :: c0 :: r) = none) :
    ∀ n, n < (Bl ++ [' ']).length →
      f ((Bl ++ [' ']).drop n ++ (c0 :: rest)) = none := by
  intro n hn
  simp only [List.length_append, List.length_cons, List.length_nil] at hn
  by_cases hnB : n < Bl.length
  · rw [List.drop_append_of_le_length (Nat.le_of_lt hnB),
      List.drop_eq_getElem_cons hnB, List.cons_append, List.cons_append]
    exact hplain _ _ (hBp _ (List.getElem_mem hnB))
  · have hne : n = Bl.length := by omega
    rw [hne, List.drop_left, List.singleton_append]
    exact hspace rest

theorem cleanReference_refstring (B c v : List Char)
    (hB : B ≠ []) (hBp : ∀ ch ∈ B, ch ∈ plainChars)
    (hc : c ≠ []) (hcd : ∀ ch ∈ c, ch ∈ digitChars)
    (hv : v ≠ []) (hvd : ∀ ch ∈ v, ch ∈ digitChars) :
    cleanReference (B ++ ' ' :: (c ++ ':' :: v))
      = B ++ ' ' :: (c ++ ':' :: v) := by
  obtain ⟨b0, Bt, rfl⟩ : ∃ b0 Bt, B = b0 :: Bt := by
    cases B with
    | nil => exact absurd rfl hB
    | cons a t => exact ⟨a, t, rfl⟩
  obtain ⟨c0, ct, rfl⟩ : ∃ c0 ct, c = c0 :: ct := by
    cases c with
    | nil => exact absurd rfl hc
    | cons a t => exact ⟨a, t, rfl⟩
  obtain ⟨v0, vl, rfl⟩ : ∃ w x, v = w ++ [x] := by
    rcases List.eq_nil_or_concat v with h | ⟨L, b, h⟩
    · exact absurd h hv
    · exact ⟨L, b, by rw [h, List.concat_eq_append]⟩
  have hc0 : c0 ∈ digitChars := hcd c0 (List.mem_cons_self _ _)
  have hBws : ∀ ch ∈ b0 :: Bt, isWsChar ch = false :=
    fun ch h => (plainChar_facts ch (hBp ch h)).1
  have hmid : ∀ ch ∈ (c0 :: ct) ++ ':' :: (v0 ++ [vl]),
      isWsChar ch = false ∧ ch ≠ '-' := by
    intro ch hch
    rcases List.mem_append.mp hch with h | h
    · have hf := digitChar_facts ch (hcd ch h)
      exact ⟨hf.2.1, hf.2.2.2.1⟩
    · rcases List.mem_cons.mp h with rfl | h
      · exact ⟨by decide, by decide⟩
      · have hf := digitChar_facts ch (hvd ch h)
        exact ⟨hf.2.1, hf.2.2.2.1⟩
  have htail : ∀ ch ∈ c0 :: (ct ++ ':' :: (v0 ++ [vl])),
      isWsChar ch = false ∧ ch ≠ '-' := by
    intro ch hch
    exact hmid ch (by rw [List.cons_append]; exact hch)
  have h_trim : trimWs ((b0 :: Bt) ++ ' ' :: ((c0 :: ct) ++ ':' :: (v0 ++ [vl])))
      = (b0 :: Bt) ++ ' ' :: ((c0 :: ct) ++ ':' :: (v0 ++ [vl])) := by
    apply trimWs_eq_self
    · intro x hx
      rw [List.cons_append, List.head?_cons] at hx
      obtain rfl : b0 = x := by injection hx
      exact hBws b0 (List.mem_cons_self _ _)
    · intro x hx
      have hshape : (b0 :: Bt) ++ ' ' :: ((c0 :: ct) ++ ':' :: (v0 ++ [vl]))
          = ((b0 :: Bt) ++ ' ' :: ((c0 :: ct) ++ ':' :: v0)) ++ [vl] := by
        simp
      rw [hshape, List.getLast?_concat] at hx
      obtain rfl : vl = x := by injection hx
      exact (digitChar_facts vl (hvd vl (by simp))).2.1
  have h_squeeze :
      squeezeWs ((b0 :: Bt) ++ ' ' :: ((c0 :: ct) ++ ':' :: (v0 ++ [vl])))
      = (b0 :: Bt) ++ ' ' :: ((c0 :: ct) ++ ':' :: (v0 ++ [vl])) := by
    apply squeezeWs_eq_self
    · intro ch hch hws
      rcases List.mem_append.mp hch with h | h
      · rw [hBws ch h] at hws
        exact absurd hws (by simp)
      · rcases List.mem_cons.mp h with rfl | h
        · rfl
        · rw [(hmid ch h).1] at hws
          exact absurd hws (by simp)
    · apply List.chain'_append.mpr
      refine ⟨chain'_nonws _ hBws, ?_, ?_⟩
      · apply List.chain'_cons'.mpr
        refine ⟨?_, chain'_nonws _ (fun ch h => (hmid ch h).1)⟩
        intro y hy
        rintro ⟨_, hwy⟩
        simp only [List.cons_append, List.head?_cons, Option.mem_def,
          Option.some.injEq] at hy
        rw [← hy, (digitChar_facts c0 hc0).2.1] at hwy
        exact Bool.false_ne_true hwy
      · intro x hx y hy
        rintro ⟨hwx, _⟩
        have hxm : x ∈ b0 :: Bt :=
          List.mem_of_getLast?_eq_some (Option.mem_def.mp hx)
        rw [hBws x hxm] at hwx
        exact Bool.false_ne_true hwx
  have hsplit : (b0 :: Bt) ++ ' ' :: ((c0 :: ct) ++ ':' :: (v0 ++ [vl]))
      = ((b0 :: Bt) ++ [' ']) ++ (c0 :: (ct ++ ':' :: (v0 ++ [vl]))) := by
    simp
  have hscan : ∀ (f : List Char → Option (List Char)) (rep : Char),
      (∀ x r, x ∈ plainChars → f (x :: r) = none) →
      (∀ r, f (' ' :: c0 :: r) = none) →
      (∀ fuel, replaceScan f rep fuel (c0 :: (ct ++ ':' :: (v0 ++ [vl])))
        = c0 :: (ct ++ ':' :: (v0 ++ [vl]))) →
      replaceScan f rep
          ((b0 :: Bt) ++ ' ' :: ((c0 :: ct) ++ ':' :: (v0 ++ [vl]))).length
          ((b0 :: Bt) ++ ' ' :: ((c0 :: ct) ++ ':' :: (v0 ++ [vl])))
        = (b0 :: Bt) ++ ' ' :: ((c0 :: ct) ++ ':' :: (v0 ++ [vl])) := by
    intro f rep hplain hspace hmidid
    rw [hsplit]
    rw [replaceScan_append f rep ((b0 :: Bt) ++ [' '])
      (c0 :: (ct ++ ':' :: (v0 ++ [vl])))
      (refstring_prefix_cond (b0 :: Bt) hBp c0 hc0 _ f hplain hspace)
      _ (by simp)]
    rw [hmidid]
  have h_arrow := hscan matchArrowAt '-'
    (fun x r hx => (all_matchers_none_plain x r hx).1)
    (fun r => (all_matchers_none_space c0 hc0 r).1)
    (fun fuel => replaceScan_of_forall_none _ _ _
      (forall_drop_none _ _ (by decide) (fun x r hxm =>
        matchArrowAt_none_of_head (x :: r) x r
          (by simp [List.dropWhile_cons, (htail x hxm).1]) (htail x hxm).2))
      fuel)
  have h_to := hscan matchToAt '-'
    (fun x r hx => (all_matchers_none_plain x r hx).2.1)
    (fun r => (all_matchers_none_space c0 hc0 r).2.1)
    (fun fuel => replaceScan_of_forall_none _ _ _
      (forall_drop_none _ _ (by decide) (fun x r hxm =>
        matchToAt_none_head_nonws x r (htail x hxm).1))
      fuel)
  have h_colon := hscan (matchSepAt ':') ':'
    (fun x r hx => (all_matchers_none_plain x r hx).2.2.1)
    (fun r => (all_matchers_none_space c0 hc0 r).2.2.1)
    (fun fuel => replaceScan_sep_wsfree ':' _
      (fun ch h => (htail ch h).1) fuel)
  have h_dash := hscan (matchSepAt '-') '-'
    (fun x r hx => (all_matchers_none_plain x r hx).2.2.2)
    (fun r => (all_matchers_none_space c0 hc0 r).2.2.2)
    (fun fuel => replaceScan_sep_wsfree '-' _
      (fun ch h => (htail ch h).1) fuel)
  show cleanReference _ = _
  simp only [cleanReference]
  rw [h_trim, h_squeeze, h_arrow, h_to, h_colon, h_dash]

theorem catalog_lower : ∀ s ∈ canonicalBookSlugs, lowerStr s = s := by
  decide

theorem catalog_nonempty : ∀ s ∈ canonicalBookSlugs, s.data ≠ [] := by
  decide

theorem map_self_of_forall (f : Char → Char) (l : List Char)
    (h : ∀ a ∈ l, f a = a) : l.map f = l := by
  induction l with
  | nil => rfl
  | cons a t ih =>
    rw [List.map_cons, h a (List.mem_cons_self a t),
      ih (fun x hx => h x (List.mem_cons_of_mem a hx))]

theorem takeWhile_append_all (p : Char → Bool) (l₁ l₂ : List Char)
    (h : ∀ a ∈ l₁, p a = true) :
    (l₁ ++ l₂).takeWhile p = l₁ ++ l₂.takeWhile p := by
  induction l₁ with
  | nil => rfl
  | cons a t ih =>
    rw [List.cons_append, List.takeWhile_cons,
      if_pos (h a (List.mem_cons_self a t)),
      ih (fun x hx => h x (List.mem_cons_of_mem a hx)), List.cons_append]

theorem dropWhile_append_all (p : Char → Bool) (l₁ l₂ : List Char)
    (h : ∀ a ∈ l₁, p a = true) :
    (l₁ ++ l₂).dropWhile p = l₂.dropWhile p := by
  induction l₁ with
  | nil => rfl
  | cons a t ih =>
    rw [List.cons_append, List.dropWhile_cons,
      if_pos (h a (List.mem_cons_self a t)),
      ih (fun x hx => h x (List.mem_cons_of_mem a hx))]

theorem splitDash_single (l : List Char) (h : ∀ ch ∈ l, ch ≠ '-') :
    splitDash l = [l] := by
  induction l with
  | nil => rfl
  | cons a t ih =>
    simp only [splitDash]
    rw [if_neg (h a (List.mem_cons_self a t)),
      ih (fun ch hc => h ch (List.mem_cons_of_mem a hc))]

theorem matchChapterVerse_cv (c v : List Char) (hc : c ≠ [])
    (hcd : ∀ ch ∈ c, ch ∈ digitChars) (hv : v ≠ [])
    (hvd : ∀ ch ∈ v, ch ∈ digitChars) :
    matchChapterVerse (c ++ ':' :: v) = some (natOfDigits c, natOfDigits v) := by
  have hcd2 : ∀ ch ∈ c, Char.isDigit ch = true :=
    fun ch h => (digitChar_facts ch (hcd ch h)).1
  have hvd2 : ∀ ch ∈ v, Char.isDigit ch = true :=
    fun ch h => (digitChar_facts ch (hvd ch h)).1
  have h2 : c.isEmpty = false := by
    cases c with
    | nil => exact absurd rfl hc
    | cons a t => rfl
  have h4 : v.isEmpty = false := by
    cases v with
    | nil => exact absurd rfl hv
    | cons a t => rfl
  have hds : (c ++ ':' :: v).takeWhile Char.isDigit = c := by
    rw [takeWhile_append_all _ _ _ hcd2, List.takeWhile_cons, if_neg (by decide),
      List.append_nil]
  have hrest : (c ++ ':' :: v).dropWhile Char.isDigit = ':' :: v := by
    rw [dropWhile_append_all _ _ _ hcd2, List.dropWhile_cons, if_neg (by decide)]
  have hvs : v.takeWhile Char.isDigit = v := List.takeWhile_eq_self_iff.mpr hvd2
  have hrest3 : v.dropWhile Char.isDigit = [] := List.dropWhile_eq_nil_iff.mpr hvd2
  simp only [matchChapterVerse, hds, hrest, hvs, hrest3, h2, h4,
    Bool.false_eq_true, if_false, List.isEmpty_nil, Bool.not_true,
    Bool.or_false]

theorem matchChapterVerseTail_cv (c v : List Char) (hc : c ≠ [])
    (hcd : ∀ ch ∈ c, ch ∈ digitChars) (hv : v ≠ [])
    (hvd : ∀ ch ∈ v, ch ∈ digitChars) :
    matchChapterVerseTail (' ' :: (c ++ ':' :: v))
      = some (natOfDigits c, natOfDigits v) := by
  obtain ⟨c0, ct, rfl⟩ : ∃ c0 ct, c = c0 :: ct := by
    cases c with
    | nil => exact absurd rfl hc
    | cons a t => exact ⟨a, t, rfl⟩
  simp only [matchChapterVerseTail]
  rw [if_pos (by decide)]
  rw [List.dropWhile_cons, if_pos (by decide), List.cons_append,
    List.dropWhile_cons,
    if_neg (by simp [(digitChar_facts c0 (hcd c0 (List.mem_cons_self c0 ct))).2.1]),
    ← List.cons_append]
  exact matchChapterVerse_cv _ v hc hcd hv hvd

theorem matchChapterVerseTail_none_plain (b2 : Char) (r : List Char)
    (hb2 : b2 ∈ plainChars) :
    matchChapterVerseTail (b2 :: r) = none := by
  simp only [matchChapterVerseTail]
  rw [if_neg (by simp [(plainChar_facts b2 hb2).1])]

theorem splitBookRef_refstring (Bg : List Char) (acc : List Char)
    (hB : Bg ≠ []) (hBp : ∀ ch ∈ Bg, ch ∈ plainChars)
    (c v : List Char) (hc : c ≠ []) (hcd : ∀ ch ∈ c, ch ∈ digitChars)
    (hv : v ≠ []) (hvd : ∀ ch ∈ v, ch ∈ digitChars) :
    splitBookRef acc (Bg ++ ' ' :: (c ++ ':' :: v))
      = some (acc ++ Bg, natOfDigits c, natOfDigits v) := by
  induction Bg generalizing acc with
  | nil => exact absurd rfl hB
  | cons b Bt ih =>
    simp only [List.cons_append, splitBookRef, List.append_eq]
    have hbp := plainChar_facts b (hBp b (List.mem_cons_self b Bt))
    rw [if_pos hbp.2.2.2.2.2]
    cases Bt with
    | nil =>
      rw [List.nil_append, matchChapterVerseTail_cv c v hc hcd hv hvd]
    | cons b2 Bt2 =>
      simp only [List.cons_append]
      have hnone := matchChapterVerseTail_none_plain b2
        (Bt2 ++ ' ' :: (c ++ ':' :: v))
        (hBp b2 (List.mem_cons_of_mem b (List.mem_cons_self b2 Bt2)))
      rw [hnone]
      have ihx := ih (acc ++ [b]) (by simp)
        (fun ch hx => hBp ch (List.mem_cons_of_mem b hx))
      rw [List.cons_append] at ihx
      rw [ihx]
      simp [List.append_assoc]

theorem parseBookFromReference_exact (dbRows : List VerseRow) (t : String)
    (B : String) (hB : B ∈ canonicalBookSlugs) (hBne : B.data ≠ [])
    (hBp : ∀ ch ∈ B.data, ch ∈ plainChars) :
    parseBookFromReference canonicalBookSlugs dbRows B.data t = some B := by
  have hmap : B.data.map Char.toLower = B.data :=
    map_self_of_forall _ _ (fun a ha => (plainChar_facts a (hBp a ha)).2.1)
  have hnorm : normalizedBookPart B.data = B := by
    simp only [normalizedBookPart, hmap]
    rw [trimWs_eq_self]
    · intro x hx
      exact (plainChar_facts x (hBp x (List.mem_of_mem_head? hx))).1
    · intro x hx
      exact (plainChar_facts x (hBp x (List.mem_of_getLast?_eq_some hx))).1
  simp only [parseBookFromReference, hnorm]
  rw [if_pos (List.elem_eq_true_of_mem hB)]

theorem parseReferencePart_refstring (dbRows : List VerseRow) (t : String)
    (B : String) (hB : B ∈ canonicalBookSlugs) (hBne : B.data ≠ [])
    (hBp : ∀ ch ∈ B.data, ch ∈ plainChars)
    (c v : List Char) (hc : c ≠ []) (hcd : ∀ ch ∈ c, ch ∈ digitChars)
    (hv : v ≠ []) (hvd : ∀ ch ∈ v, ch ∈ digitChars) :
    parseReferencePart canonicalBookSlugs dbRows t
        (B.data ++ ' ' :: (c ++ ':' :: v))
      = some (B, natOfDigits c, natOfDigits v) := by
  simp only [parseReferencePart, matchRefPart]
  rw [splitBookRef_refstring B.data [] hBne hBp c v hc hcd hv hvd]
  simp only [List.nil_append]
  rw [parseBookFromReference_exact dbRows t B hB hBne hBp]
  exact if_neg (fun h => hBne (congrArg String.data h))

theorem parseReference_refstring (dbRows : List VerseRow) (t : String)
    (B : String) (hB : B ∈ canonicalBookSlugs)
    (hnd : ∀ ch ∈ B.data, ch ≠ '-')
    (c v : List Char) (hc : c ≠ []) (hcd : ∀ ch ∈ c, ch ∈ digitChars)
    (hv : v ≠ []) (hvd : ∀ ch ∈ v, ch ∈ digitChars)
    (s : String) (hs : s.data = B.data ++ ' ' :: (c ++ ':' :: v)) :
    parseReference canonicalBookSlugs dbRows s t
      = some { book := B, chapter := natOfDigits c, verse := natOfDigits v } := by
  have hBne : B.data ≠ [] := catalog_nonempty B hB
  have hBp : ∀ ch ∈ B.data, ch ∈ plainChars := by
    intro ch h
    rcases catalog_chars B hB ch h with hp | hd
    · exact hp
    · exact absurd hd (hnd ch h)
  have hclean := cleanReference_refstring B.data c v hBne hBp hc hcd hv hvd
  have hnodash : ∀ ch ∈ B.data ++ ' ' :: (c ++ ':' :: v), ch ≠ '-' := by
    intro ch h
    rcases List.mem_append.mp h with h | h
    · exact hnd ch h
    · rcases List.mem_cons.mp h with rfl | h
      · decide
      · rcases List.mem_append.mp h with h | h
        · exact (digitChar_facts ch (hcd ch h)).2.2.2.1
        · rcases List.mem_cons.mp h with rfl | h
          · decide
          · exact (digitChar_facts ch (hvd ch h)).2.2.2.1
  simp only [parseReference, hs, hclean, splitDash_single _ hnodash]
  rw [if_neg (by simp)]
  rw [parseReferencePart_refstring dbRows t B hB hBne hBp c v hc hcd hv hvd]

theorem passageQueryRows_single (dbRows : List VerseRow) (t book : String)
    (chapter verse : Nat) :
    passageQueryRows dbRows t book chapter verse none none none
      = (dbRows.filter (singleVersePred t (lowerStr book) chapter verse)).take 1
      := by
  simp only [passageQueryRows, passageFinalEndBook, Option.getD_none]
  rw [if_pos ⟨trivial, trivial, trivial⟩]

/-- A concrete verse row used to instantiate the C1 round-trip theorem. -/
def c1Row : VerseRow :=
  { bibleTranslationSlug := "vdcc", bookSlug := "genesis",
    bookName := "Geneza", chapter := 2, verse := 3,
    text := "sample text" }

/-- C1, counterexample: the catalog slug "1-samuel" contains a dash, so the
reference "1-samuel 1:1" is split at the dash into three parts and rejected
by `parseReference`, contradicting the claim that every canonical book slug
round-trips. -/
theorem c1_counterexample :
    "1-samuel" ∈ canonicalBookSlugs ∧
    parseReference canonicalBookSlugs [] "1-samuel 1:1" "vdcc" = none := by
  decide

/-- C1 (amended): for a dash-free canonical book slug `B` and non-empty
digit strings `c`, `v`, parsing the reference `"B c:v"` succeeds with book
`B`, chapter `natOfDigits c`, verse `natOfDigits v` and absent end fields
(the passage route then defaults each end field to the corresponding start
field); compiling the resulting single-verse query over a table containing
a row keyed `(t, B, natOfDigits c, natOfDigits v)` returns exactly one row,
and that row carries the key. -/
theorem c1_roundtrip_single_verse (dbRows : List VerseRow) (t : String)
    (B : String) (hB : B ∈ canonicalBookSlugs)
    (hnd : ∀ ch ∈ B.data, ch ≠ '-')
    (c v : List Char) (hc : c ≠ []) (hcd : ∀ ch ∈ c, ch ∈ digitChars)
    (hv : v ≠ []) (hvd : ∀ ch ∈ v, ch ∈ digitChars)
    (s : String) (hs : s.data = B.data ++ ' ' :: (c ++ ':' :: v))
    (r0 : VerseRow) (hr0 : r0 ∈ dbRows)
    (hkey : singleVersePred t B (natOfDigits c) (natOfDigits v) r0 = true) :
    parseReference canonicalBookSlugs dbRows s t
      = some { book := B, chapter := natOfDigits c, verse := natOfDigits v }
    ∧ ∃ r, passageQueryRows dbRows t B (natOfDigits c) (natOfDigits v)
          none none none = [r]
        ∧ singleVersePred t B (natOfDigits c) (natOfDigits v) r = true := by
  refine ⟨parseReference_refstring dbRows t B hB hnd c v hc hcd hv hvd s hs, ?_⟩
  rw [passageQueryRows_single, catalog_lower B hB]
  cases hfil : dbRows.filter (singleVersePred t B (natOfDigits c)
      (natOfDigits v)) with
  | nil =>
    have hmem : r0 ∈ dbRows.filter (singleVersePred t B (natOfDigits c)
        (natOfDigits v)) := List.mem_filter.mpr ⟨hr0, hkey⟩
    rw [hfil] at hmem
    exact absurd hmem (List.not_mem_nil r0)
  | cons a l =>
    refine ⟨a, rfl, ?_⟩
    have hmem : a ∈ dbRows.filter (singleVersePred t B (natOfDigits c)
        (natOfDigits v)) := by
      rw [hfil]
      exact List.mem_cons_self a l
    exact (List.mem_filter.mp hmem).2

/-- Witness for C1: the reference "genesis 2:3" over a one-row table. -/
theorem c1_roundtrip_single_verse_witness :
    parseReference canonicalBookSlugs [c1Row] "genesis 2:3" "vdcc"
      = some { book := "genesis", chapter := natOfDigits ['2'],
               verse := natOfDigits ['3'] }
    ∧ ∃ r, passageQueryRows [c1Row] "vdcc" "genesis" (natOfDigits ['2'])
          (natOfDigits ['3']) none none none = [r]
        ∧ singleVersePred "vdcc" "genesis" (natOfDigits ['2'])
            (natOfDigits ['3']) r = true :=
  c1_roundtrip_single_verse [c1Row] "vdcc" "genesis" (by decide) (by decide)
    ['2'] ['3'] (by decide) (by decide) (by decide) (by decide)
    "genesis 2:3" (by decide) c1Row (by decide) (by decide)
